import Mathlib

/-!
Shallow embedding of the capacity-constrained routing / admission-control /
relaxation engine of the Admissibility-Physics repository
(src/utils/lambda_floor.py, src/utils/accumulated_cost.py,
src/utils/routing_engine_v1.py, duplicated in
src/core/admissibility_unified_V4.py), together with proofs and refutations
of the specification claims about it.

Modelling conventions:
* Python floats are modelled as exact rationals (`ℚ`); float literals such as
  `1e-6` are read as the decimal they denote.
* A Python `Dict[str, int]` load table is modelled as a total function
  `String → ℤ` with default value 0 (`d.get(name, 0)` semantics).  Every
  numeric observable of the engine (cost, headroom, admissibility,
  transition cost) reads loads only through this default-0 lookup, so the
  function model preserves all observable values.
* `float('inf')` initialisers are modelled by `Option`/`WithTop` as noted at
  each definition.
* The recursive DFS of `find_all_paths` terminates in the source because the
  per-branch visited set grows inside the finite node set; the embedding
  makes this explicit with a fuel parameter that is amply larger than the
  number of distinct nodes reachable through the edge list.
-/

namespace AdmissibilityPhysics

unseal Rat.add Rat.sub Rat.mul Rat.inv

/-- Admissibility margin, `EPS_SLACK = 1e-6` in lambda_floor.py. -/
def EPS_SLACK : ℚ := 1 / 1000000

/-- Cost comparison tolerance, `EPS_COST = 1e-9` in lambda_floor.py. -/
def EPS_COST : ℚ := 1 / 1000000000

/-- Truncation toward zero, the semantics of Python `int()` on a number. -/
def truncQ (q : ℚ) : ℤ := if q < 0 then ⌈q⌉ else ⌊q⌋

/-- An enforcement interface with capacity and cost model
(`Interface` dataclass; identical in lambda_floor.py, accumulated_cost.py,
routing_engine_v1.py).  The dataclass performs no validation of its fields. -/
structure Interface where
  name : String
  capacity : ℚ
  epsilon : ℚ
  eta : ℚ
deriving DecidableEq, Repr

/-- Cost function `E(n) = ε·n + η·n·(n-1)/2`, with the `n <= 0` guard of the
source returning `0.0`. -/
def Interface.cost (I : Interface) (n : ℤ) : ℚ :=
  if n ≤ 0 then 0 else I.epsilon * n + I.eta * n * (n - 1) / 2

/-- Headroom `H = C - E(n)`. -/
def Interface.headroom (I : Interface) (n : ℤ) : ℚ :=
  I.capacity - I.cost n

/-- Floor of `(B + √D) / A` for integers `A > 0`, `D ≥ 0`, computed with the
integer square root (for a real `x` and integers `A > 0`, `B`,
`⌊(B + x)/A⌋ = ⌊(B + ⌊x⌋)/A⌋`). -/
def rootFloorInt (A B D : ℤ) : ℤ :=
  Int.fdiv (B + (Nat.sqrt D.toNat : ℤ)) A

/-- Floor of the positive quadratic root `(-b + √disc) / (2a)` over ℚ,
obtained by clearing denominators and delegating to `rootFloorInt`. -/
def rootFloor (a b disc : ℚ) : ℤ :=
  let s : ℕ := (2 * a).den * (b.den * disc.den)
  rootFloorInt (2 * a * s).num (-b * s).num (disc * s * s).num

/-- Maximum `n` before `E(n) > C` (`Interface.max_n` of
routing_engine_v1.py / lambda_floor.py, the unclamped variant): for
`eta < 1e-12` it is `int(capacity/epsilon)` (or the fallback `999` when
`epsilon ≤ 0`); otherwise the truncated positive root of
`(η/2)·n² + (ε - η/2)·n - C = 0`, clamped below by `0`, with `0` returned
on a negative discriminant.  Python's `int()` truncation and the `max(0, ·)`
clamp together coincide with `max 0 ⌊root⌋`. -/
def Interface.max_n (I : Interface) : ℤ :=
  if I.eta < 1 / 10 ^ 12 then
    (if 0 < I.epsilon then truncQ (I.capacity / I.epsilon) else 999)
  else
    let a := I.eta / 2
    let b := I.epsilon - I.eta / 2
    let c := -I.capacity
    let disc := b * b - 4 * a * c
    if disc < 0 then 0 else max 0 (rootFloor a b disc)

/-- A per-interface load configuration: the `LoadVector` dict modelled as a
total function with default 0. -/
def LoadVector : Type := String → ℤ

/-- The `LoadVector.empty()` configuration. -/
def emptyLoad : LoadVector := fun _ => 0

/-- An edge connecting two nodes via an interface. -/
structure Edge where
  u : String
  v : String
  interface : Interface
deriving DecidableEq, Repr

/-- The other endpoint of an edge (`self.v if node == self.u else self.u`). -/
def Edge.other (e : Edge) (node : String) : String :=
  if node = e.u then e.v else e.u

/-- A routing network: node list plus edge list. -/
structure Network where
  nodes : List String
  edges : List Edge
deriving Repr

/-- Adjacency list of a node, in edge-insertion order.  Each edge is appended
to the adjacency lists of both endpoints (so a self-loop appears twice),
exactly as `Network.__post_init__` builds `_adjacency`. -/
def Network.adj (net : Network) (node : String) : List Edge :=
  (net.edges.map (fun e =>
    (if e.u = node then [e] else []) ++ (if e.v = node then [e] else []))).flatten

/-- Neighbours of a node with their connecting edges. -/
def Network.neighbors (net : Network) (node : String) : List (String × Edge) :=
  (net.adj node).map (fun e => (e.other node, e))

/-- Insert an interface into the registry with Python-dict semantics: an
existing key keeps its position and gets the new value, a new key is appended
at the end. -/
def upsertInterface (l : List Interface) (i : Interface) : List Interface :=
  if l.any (fun j => j.name == i.name) then
    l.map (fun j => if j.name = i.name then i else j)
  else l ++ [i]

/-- The interface registry values of a network
(`Network._interfaces.values()`), built by inserting each edge's interface
in edge order. -/
def Network.interfaces (net : Network) : List Interface :=
  net.edges.foldl (fun acc e => upsertInterface acc e.interface) []

/-- A path through the network: node sequence plus edge sequence. -/
structure Path where
  nodes : List String
  edges : List Edge
deriving DecidableEq, Repr

/-- Load added by traversing the path once: one unit per traversed edge,
aggregated per interface name (`Path.load_contribution`). -/
def Path.load_contribution (p : Path) (name : String) : ℕ :=
  (p.edges.filter (fun e => e.interface.name == name)).length

/-- Ordering of paths by edge count, the sort key of `find_all_paths`. -/
def pathLenLE (p q : Path) : Prop :=
  p.edges.length ≤ q.edges.length

instance : DecidableRel pathLenLE := fun p q =>
  inferInstanceAs (Decidable (p.edges.length ≤ q.edges.length))

instance : IsTotal Path pathLenLE :=
  ⟨fun p q => Nat.le_total p.edges.length q.edges.length⟩

instance : IsTrans Path pathLenLE :=
  ⟨fun _ _ _ h h2 => Nat.le_trans h h2⟩

/-- Depth-first search of `find_all_paths`: simple-path enumeration with an
explicit visited set, a global cap `maxPaths` on the collected list and a
branch cutoff once more than `maxLength` edges are on the stack.  The `acc`
parameter is the shared `paths` list; `fuel` bounds the recursion depth
(each level consumes one unvisited node, so any fuel larger than the number
of distinct nodes makes the `0` case unreachable). -/
def dfs (net : Network) (target : String) (maxLength maxPaths : ℕ) :
    ℕ → String → List String → List String → List Edge → List Path → List Path
  | 0, _, _, _, _, acc => acc
  | fuel + 1, current, visited, pathNodes, pathEdges, acc =>
    if maxPaths ≤ acc.length ∨ maxLength < pathEdges.length then acc
    else if current = target then acc ++ [⟨pathNodes, pathEdges⟩]
    else (net.neighbors current).foldl
      (fun acc2 ne =>
        if ne.1 ∈ visited then acc2
        else dfs net target maxLength maxPaths fuel ne.1 (ne.1 :: visited)
          (pathNodes ++ [ne.1]) (pathEdges ++ [ne.2]) acc2)
      acc

/-- Fuel passed to the DFS: strictly more than the number of distinct nodes
that can ever enter the visited set. -/
def dfsFuel (net : Network) : ℕ := 2 * net.edges.length + 2

/-- Path enumeration `find_all_paths(network, source, target, max_length,
max_paths)` of lambda_floor.py: a single zero-edge path when
`source == target`, otherwise the DFS enumeration sorted stably by edge
count (`paths.sort(key=len(edges))`; Python's sort is stable, and a stable
sort by key is unique, so Mathlib's insertion sort computes it). -/
def find_all_paths (net : Network) (source target : String)
    (maxLength maxPaths : ℕ) : List Path :=
  if source = target then [⟨[source], []⟩]
  else
    List.insertionSort pathLenLE
      (dfs net target maxLength maxPaths (dfsFuel net) source [source] [source] [] [])

/-- A committed correlation (`Obligation` dataclass). -/
structure Obligation where
  id : ℤ
  source : String
  target : String
  demand : ℤ
deriving DecidableEq, Repr

/-- An obligation with its current routing (`RoutedObligation`). -/
structure RoutedObligation where
  obligation : Obligation
  path : Path
deriving DecidableEq, Repr

/-- Total enforcement cost `Σ_i E_i(n_i)` of a load configuration over a
list of interfaces.  (The lambda_floor.py variant iterates the load dict
intersected with the interface registry, the unified variant iterates the
interfaces; both compute this value because absent entries cost `E(0)=0`.) -/
def total_cost (load : LoadVector) (itfs : List Interface) : ℚ :=
  (itfs.map (fun i => i.cost (load i.name))).sum

/-- Admissibility check of `is_admissible`: every interface must have
headroom strictly above `EPS_SLACK`. -/
def is_admissible (load : LoadVector) (itfs : List Interface) : Bool :=
  itfs.all (fun i => decide (EPS_SLACK < i.headroom (load i.name)))

/-- Transition cost `ΔS = Σ_i |E_i(n_next) - E_i(n_prev)|` between two load
states (`transition_cost`, identical in accumulated_cost.py and
lambda_floor.py). -/
def transition_cost (Lprev Lnext : LoadVector) (itfs : List Interface) : ℚ :=
  (itfs.map (fun i => |i.cost (Lnext i.name) - i.cost (Lprev i.name)|)).sum

/-- Saturation fraction and bottleneck (`residual_fraction`): the maximal
`E_i/C_i` (taken as 1 on a non-positive capacity) with the first maximiser's
name, via the source's strict-improvement fold started at `(0.0, "")`. -/
def residual_fraction (load : LoadVector) (itfs : List Interface) : ℚ × String :=
  itfs.foldl
    (fun wb i =>
      let frac := if 0 < i.capacity then i.cost (load i.name) / i.capacity else 1
      if wb.1 < frac then (frac, i.name) else wb)
    (0, "")

/-- Hypothetical load after routing a path with a demand on top of an
existing load: the dict update loop of `route_obligation`. -/
def hypLoad (existing : LoadVector) (p : Path) (demand : ℤ) : LoadVector :=
  fun name => existing name + (p.load_contribution name : ℤ) * demand

/-- One loop-body execution of `route_obligation`'s candidate scan: skip a
candidate whose hypothetical load is inadmissible, otherwise keep it exactly
when its total cost strictly beats the best so far (`best_cost = inf`
modelled by `none`). -/
def routeStep (existing : LoadVector) (demand : ℤ) (itfs : List Interface) :
    Option (Path × ℚ) → Path → Option (Path × ℚ)
  | none, path =>
    if is_admissible (hypLoad existing path demand) itfs then
      some (path, total_cost (hypLoad existing path demand) itfs)
    else none
  | some pc, path =>
    if is_admissible (hypLoad existing path demand) itfs then
      (if total_cost (hypLoad existing path demand) itfs < pc.2 then
        some (path, total_cost (hypLoad existing path demand) itfs)
      else some pc)
    else some pc

/-- Best-routing fold of `route_obligation`: scan the candidate paths in
order with `routeStep`. -/
def routeFold (existing : LoadVector) (demand : ℤ) (itfs : List Interface)
    (paths : List Path) : Option (Path × ℚ) :=
  paths.foldl (routeStep existing demand itfs) none

/-- Loop invariant of the candidate scan over the processed prefix `done`:
an empty accumulator means no admissible candidate was seen; a non-empty one
carries the first strict cost minimiser among the admissible processed
candidates, together with its cost. -/
def RFInv (existing : LoadVector) (demand : ℤ) (itfs : List Interface)
    (done : List Path) : Option (Path × ℚ) → Prop
  | none => ∀ p ∈ done, is_admissible (hypLoad existing p demand) itfs = false
  | some pc =>
      pc.2 = total_cost (hypLoad existing pc.1 demand) itfs ∧
      is_admissible (hypLoad existing pc.1 demand) itfs = true ∧
      (∃ pre post, done = pre ++ pc.1 :: post ∧
        (∀ q ∈ pre, is_admissible (hypLoad existing q demand) itfs = true →
          pc.2 < total_cost (hypLoad existing q demand) itfs)) ∧
      (∀ q ∈ done, is_admissible (hypLoad existing q demand) itfs = true →
        pc.2 ≤ total_cost (hypLoad existing q demand) itfs)

/-- Admission controller `route_obligation(network, obligation,
existing_load, max_paths)` of lambda_floor.py: enumerate candidates with
`find_all_paths(…, max_length=6, max_paths)`, return the minimum-cost
admissible routing or `none`. -/
def route_obligation (net : Network) (ob : Obligation) (existing : LoadVector)
    (maxPaths : ℕ) : Option RoutedObligation :=
  let paths := find_all_paths net ob.source ob.target 6 maxPaths
  (routeFold existing ob.demand net.interfaces paths).map
    (fun pc => ⟨ob, pc.1⟩)

/-- Total load of a routed set (`compute_load_from_routed`). -/
def compute_load_from_routed (routed : List RoutedObligation) : LoadVector :=
  fun name =>
    (routed.map (fun r => (r.path.load_contribution name : ℤ) * r.obligation.demand)).sum

/-- Mutable state of the coordinate-descent loop of `relax_routing`:
the routed list, its running load and cost, and the per-pass `improved`
flag. -/
structure RelaxState where
  current : List RoutedObligation
  load : LoadVector
  cost : ℚ
  improved : Bool

/-- One body execution of the inner loop of `relax_routing` at index `i`:
subtract obligation `i`'s contribution, reroute it against the residual
load, and accept the new route only when it is strictly cheaper by more
than `EPS_COST`. -/
def relaxStep (net : Network) (itfs : List Interface) (st : RelaxState)
    (i : ℕ) : RelaxState :=
  match st.current.get? i with
  | none => st
  | some ri =>
    let ob := ri.obligation
    let remaining : LoadVector :=
      fun name => st.load name - (ri.path.load_contribution name : ℤ) * ob.demand
    match route_obligation net ob remaining 10 with
    | none => st
    | some newR =>
      let newLoad : LoadVector :=
        fun name => remaining name + (newR.path.load_contribution name : ℤ) * ob.demand
      let newCost := total_cost newLoad itfs
      if newCost + EPS_COST < st.cost then
        { current := st.current.set i newR, load := newLoad, cost := newCost,
          improved := true }
      else st

/-- Invariant of the coordinate-descent state of `relax_routing`: the
obligations (in order) are exactly the original ones, the running load
agrees pointwise with the load recomputed from the current routings, the
running cost is the total cost of the running load, and the cost never
exceeds the initial cost `c0`. -/
def RelaxInv (itfs : List Interface) (obs : List Obligation) (c0 : ℚ)
    (st : RelaxState) : Prop :=
  st.current.map (fun r => r.obligation) = obs ∧
  (∀ name, st.load name = compute_load_from_routed st.current name) ∧
  st.cost = total_cost st.load itfs ∧
  st.cost ≤ c0

/-- One full pass of `relax_routing` over all obligation indices. -/
def relaxPass (net : Network) (itfs : List Interface) (st : RelaxState) :
    RelaxState :=
  (List.range st.current.length).foldl (relaxStep net itfs) st

/-- The outer iteration loop of `relax_routing`: up to `iterations` passes,
stopping early after a pass without improvement. -/
def relaxLoop (net : Network) (itfs : List Interface) :
    ℕ → RelaxState → RelaxState
  | 0, st => st
  | k + 1, st =>
    let st2 := relaxPass net itfs { st with improved := false }
    if st2.improved then relaxLoop net itfs k st2 else st2

/-- Relaxation optimizer `relax_routing(network, routed, iterations)` of
lambda_floor.py: coordinate descent over the routed obligations, returning
the relaxed list and its load. -/
def relax_routing (net : Network) (routed : List RoutedObligation)
    (iterations : ℕ) : List RoutedObligation × LoadVector :=
  let itfs := net.interfaces
  let load := compute_load_from_routed routed
  let st := relaxLoop net itfs iterations
    ⟨routed, load, total_cost load itfs, false⟩
  (st.current, st.load)

/-- A single step of an enforcement history (`HistoryStep` of
accumulated_cost.py); `min_headroom` starts from `float('inf')` in the
source, modelled by `WithTop ℚ`. -/
structure HistoryStep where
  load : LoadVector
  time : ℚ
  transition_cost : ℚ
  is_admissible : Bool
  min_headroom : WithTop ℚ
  bottleneck : String

/-- A history: interfaces plus the append-only step list (`History`). -/
structure History where
  interfaces : List Interface
  steps : List HistoryStep

/-- Minimum headroom and bottleneck computed by `History._make_step`:
a strict-improvement fold started at `(inf, "")`. -/
def min_headroom_fold (load : LoadVector) (itfs : List Interface) :
    WithTop ℚ × String :=
  itfs.foldl
    (fun mb i =>
      let h : WithTop ℚ := (i.headroom (load i.name) : ℚ)
      if h < mb.1 then (h, i.name) else mb)
    (⊤, "")

/-- Build one history step with admissibility analysis
(`History._make_step`). -/
def mkStep (itfs : List Interface) (load : LoadVector) (time tCost : ℚ) :
    HistoryStep :=
  let mb := min_headroom_fold load itfs
  ⟨load, time, tCost, decide ((EPS_SLACK : WithTop ℚ) < mb.1), mb.1, mb.2⟩

/-- Append a new state to a history (`History.append`): the first step gets
time 0 and step cost 0, later steps add the transition cost from the
previous load to the previous time. -/
def History.append (h : History) (load : LoadVector) : History :=
  match h.steps.getLast? with
  | none => { h with steps := h.steps ++ [mkStep h.interfaces load 0 0] }
  | some prev =>
    let tCost := transition_cost prev.load load h.interfaces
    { h with steps := h.steps ++ [mkStep h.interfaces load (prev.time + tCost) tCost] }

/-- Append a whole sequence of loads to a history. -/
def History.appendLoads (h : History) (loads : List LoadVector) : History :=
  loads.foldl History.append h

/-- State of the Λ floor at a report (`LambdaState` of lambda_floor.py). -/
structure LambdaState where
  time_step : ℕ
  raw_load : LoadVector
  raw_cost : ℚ
  residual_load : LoadVector
  lambda_E : ℚ
  lambda_sigma : ℚ
  bottleneck : String
  action : ℚ
  relaxation_savings : ℚ

/-- Recursive worker of `estimate_lambda_floor`, processing the remaining
obligation stream with the current active routed set, accumulated action,
previous load and step index.  Returns the recorded reports, the number of
obligations admitted from `remaining`, and the final active routed set
(which, at a rejection, is the active set the rejected obligation was
routed against). -/
def estimateAux (net : Network) (itfs : List Interface)
    (relaxEvery total : ℕ) :
    List RoutedObligation → ℚ → LoadVector → ℕ → List Obligation →
    List LambdaState × ℕ × List RoutedObligation
  | active, _, _, _, [] => ([], 0, active)
  | active, action, prevLoad, t, ob :: rest =>
    match route_obligation net ob (compute_load_from_routed active) 10 with
    | none => ([], 0, active)
    | some routed =>
      let active2 := active ++ [routed]
      let newLoad := compute_load_from_routed active2
      let action2 := action + transition_cost prevLoad newLoad itfs
      if (t + 1) % relaxEvery = 0 ∨ t = total - 1 then
        let rawCost := total_cost newLoad itfs
        let rl := relax_routing net active2 3
        let lambdaE := total_cost rl.2 itfs
        let sb := residual_fraction rl.2 itfs
        let report : LambdaState :=
          ⟨t, newLoad, rawCost, rl.2, lambdaE, sb.1, sb.2, action2, rawCost - lambdaE⟩
        let res := estimateAux net itfs relaxEvery total rl.1 action2 newLoad (t + 1) rest
        (report :: res.1, res.2.1 + 1, res.2.2)
      else
        let res := estimateAux net itfs relaxEvery total active2 action2 newLoad (t + 1) rest
        (res.1, res.2.1 + 1, res.2.2)

/-- Floor estimator `estimate_lambda_floor(network, obligation_stream,
relax_every)` of lambda_floor.py: admit the stream in order against the
active load, stop at the first rejection, relax and record a report after
every `relax_every`-th admission and on the final stream element. -/
def estimate_lambda_floor (net : Network) (stream : List Obligation)
    (relaxEvery : ℕ) : List LambdaState :=
  (estimateAux net net.interfaces relaxEvery stream.length [] 0 emptyLoad 0 stream).1

/-- A history with no steps yet, over a fixed interface list. -/
def emptyHistory (itfs : List Interface) : History := ⟨itfs, []⟩

/-- Walk predicate: `walkOk net cur ns es` says that from `cur` the node
list `ns` is reached by traversing the edge list `es`, each step moving to
a neighbour through an edge of the network (exactly the moves the DFS of
`find_all_paths` can make). -/
def walkOk (net : Network) : String → List String → List Edge → Prop
  | _, [], [] => True
  | cur, n :: ns, e :: es => (n, e) ∈ net.neighbors cur ∧ walkOk net n ns es
  | _, _, _ => False

/-- Soundness predicate for paths returned by `find_all_paths net source
target maxLength maxPaths`: a simple walk from `source` to `target` with at
most `maxLength` edges. -/
def goodPath (net : Network) (source target : String) (maxLength : ℕ)
    (p : Path) : Prop :=
  (∃ rest, p.nodes = source :: rest ∧ walkOk net source rest p.edges) ∧
  p.nodes.getLast? = some target ∧ p.nodes.Nodup ∧
  p.edges.length ≤ maxLength ∧ p.nodes.length = p.edges.length + 1

/-- A placeholder report used as the default of `List.getD`. -/
def defaultLambdaState : LambdaState :=
  ⟨0, emptyLoad, 0, emptyLoad, 0, 0, "", 0, 0⟩

/-- A load vector putting one unit on interface name "X" only. -/
def loadX : LoadVector := fun n => if n = "X" then 1 else 0

/-- A single concrete interface used in several concrete evaluations:
the spec's scenario interface `{capacity=8, linear=1.0, quadratic=0.5}`. -/
def itfI1 : Interface := ⟨"I1", 8, 1, 1 / 2⟩

/-- A degenerate interface (non-positive capacity, zero linear coefficient,
negative quadratic coefficient) used to probe construction-time
validation. -/
def itfBad : Interface := ⟨"bad", -1, 0, -1 / 2⟩

/-- An interface with a positive but sub-threshold quadratic coefficient
(`eta < 1e-12`) and a large capacity, used to probe `max_n`. -/
def itfTinyEta : Interface := ⟨"T", 10 ^ 15, 1, 1 / 10 ^ 13⟩

/-- Interface constructor of the counterexample network: `w k` with
capacity 100, linear coefficient 1 and the given quadratic coefficient. -/
def wI (k : ℕ) (eta : ℚ) : Interface := ⟨"w" ++ toString k, 100, 1, eta⟩

/-- Counterexample network for the residual-cost-monotonicity claim: four
node pairs `a_k—b_k`, each with two parallel edges whose interfaces are
shared with the neighbouring pairs (`w (k+1)` listed first, `w k` second),
plus a trigger pair `a4—b4` reachable only through `w 4`. -/
def gadgetNet : Network :=
  { nodes := ["a0", "b0", "a1", "b1", "a2", "b2", "a3", "b3", "a4", "b4"],
    edges :=
      [⟨"a0", "b0", wI 1 1⟩, ⟨"a0", "b0", wI 0 1⟩,
       ⟨"a1", "b1", wI 2 2⟩, ⟨"a1", "b1", wI 1 1⟩,
       ⟨"a2", "b2", wI 3 3⟩, ⟨"a2", "b2", wI 2 2⟩,
       ⟨"a3", "b3", wI 4 4⟩, ⟨"a3", "b3", wI 3 3⟩,
       ⟨"a4", "b4", wI 4 4⟩] }

/-- Obligation stream of the counterexample: one unit demand per pair in
order, then a demand of 3 on the trigger pair, then a zero-cost self-loop
obligation that forces one more report without adding load. -/
def gadgetStream : List Obligation :=
  [⟨0, "a0", "b0", 1⟩, ⟨1, "a1", "b1", 1⟩, ⟨2, "a2", "b2", 1⟩,
   ⟨3, "a3", "b3", 1⟩, ⟨4, "a4", "b4", 3⟩, ⟨5, "a0", "a0", 1⟩]

/-- A minimal network: a single edge A—B on the spec's scenario
interface. -/
def tinyNet : Network := ⟨["A", "B"], [⟨"A", "B", itfI1⟩]⟩

/-- A two-element unit-demand stream on the single edge of `tinyNet`. -/
def tinyStream : List Obligation := [⟨0, "A", "B", 1⟩, ⟨1, "A", "B", 1⟩]

/-- A load vector putting one unit on interface name "I1" only. -/
def loadOneI1 : LoadVector := fun n => if n = "I1" then 1 else 0

/-- A placeholder history step used as the default of `List.getD`. -/
def defaultHistoryStep : HistoryStep := ⟨emptyLoad, 0, 0, true, ⊤, ""⟩

/-- Relation between consecutive history steps established by
`History.append`: the later step's time is the earlier time plus the
(non-negative) recorded transition cost, hence times never decrease. -/
def stepChainP (s1 s2 : HistoryStep) : Prop :=
  s2.time = s1.time + s2.transition_cost ∧ 0 ≤ s2.transition_cost ∧
    s1.time ≤ s2.time

/-! ## Basic lemmas about the cost model -/

theorem Interface.cost_of_nonpos (I : Interface) {n : ℤ} (h : n ≤ 0) :
    I.cost n = 0 := if_pos h

theorem Interface.cost_of_pos (I : Interface) {n : ℤ} (h : 0 < n) :
    I.cost n = I.epsilon * n + I.eta * n * (n - 1) / 2 := if_neg (by omega)

theorem Interface.cost_nonneg (I : Interface) (heps : 0 ≤ I.epsilon)
    (heta : 0 ≤ I.eta) (n : ℤ) : 0 ≤ I.cost n := by
  rcases le_or_lt n 0 with h | h
  · rw [I.cost_of_nonpos h]
  · rw [I.cost_of_pos h]
    have h1 : (1 : ℚ) ≤ (n : ℚ) := by exact_mod_cast h
    nlinarith [mul_nonneg heps (show (0 : ℚ) ≤ (n : ℚ) by linarith),
      mul_nonneg (mul_nonneg heta (show (0 : ℚ) ≤ (n : ℚ) by linarith))
        (show (0 : ℚ) ≤ (n : ℚ) - 1 by linarith)]

theorem Interface.cost_strictMono (I : Interface) (heps : 0 < I.epsilon)
    (heta : 0 ≤ I.eta) {m n : ℤ} (hm : 0 ≤ m) (hmn : m < n) :
    I.cost m < I.cost n := by
  have hn : 0 < n := lt_of_le_of_lt hm hmn
  have hcn : I.cost n = I.epsilon * n + I.eta * n * (n - 1) / 2 := I.cost_of_pos hn
  have h1 : ((m : ℚ) + 1) ≤ (n : ℚ) := by exact_mod_cast hmn
  rcases eq_or_lt_of_le hm with h0 | h0
  · rw [I.cost_of_nonpos (le_of_eq h0.symm), hcn]
    have h0q : ((m : ℚ)) = 0 := by exact_mod_cast h0.symm
    nlinarith [mul_pos heps (show (0 : ℚ) < (n : ℚ) by linarith),
      mul_nonneg (mul_nonneg heta (show (0 : ℚ) ≤ (n : ℚ) by linarith))
        (show (0 : ℚ) ≤ (n : ℚ) - 1 by linarith)]
  · rw [I.cost_of_pos h0, hcn]
    have hmq : (0 : ℚ) < (m : ℚ) := by exact_mod_cast h0
    nlinarith [mul_pos heps (show (0 : ℚ) < (n : ℚ) - (m : ℚ) by linarith),
      mul_nonneg (mul_nonneg heta (show (0 : ℚ) ≤ (n : ℚ) - (m : ℚ) by linarith))
        (show (0 : ℚ) ≤ (n : ℚ) + (m : ℚ) - 1 by linarith)]

theorem Interface.cost_mono (I : Interface) (heps : 0 ≤ I.epsilon)
    (heta : 0 ≤ I.eta) {m n : ℤ} (hmn : m ≤ n) : I.cost m ≤ I.cost n := by
  rcases le_or_lt n 0 with h | h
  · rw [I.cost_of_nonpos h, I.cost_of_nonpos (le_trans hmn h)]
  · rcases le_or_lt m 0 with h2 | h2
    · rw [I.cost_of_nonpos h2]
      exact I.cost_nonneg heps heta n
    · rw [I.cost_of_pos h2, I.cost_of_pos h]
      have h1 : ((m : ℚ)) ≤ (n : ℚ) := by exact_mod_cast hmn
      have hmq : (1 : ℚ) ≤ (m : ℚ) := by exact_mod_cast h2
      nlinarith [mul_nonneg heps (show (0 : ℚ) ≤ (n : ℚ) - (m : ℚ) by linarith),
        mul_nonneg (mul_nonneg heta (show (0 : ℚ) ≤ (n : ℚ) - (m : ℚ) by linarith))
          (show (0 : ℚ) ≤ (n : ℚ) + (m : ℚ) - 1 by linarith)]

theorem list_sum_eq_zero_iff_of_nonneg {l : List ℚ} (h : ∀ x ∈ l, 0 ≤ x) :
    l.sum = 0 ↔ ∀ x ∈ l, x = 0 := by
  induction l with
  | nil => simp
  | cons a l ih =>
    have ha : 0 ≤ a := h a (by simp)
    have hl : ∀ x ∈ l, 0 ≤ x := fun x hx => h x (by simp [hx])
    have hsum : 0 ≤ l.sum := List.sum_nonneg hl
    simp only [List.sum_cons, List.mem_cons]
    constructor
    · intro h0
      have haz : a = 0 := by linarith
      have hlz : l.sum = 0 := by linarith
      intro x hx
      rcases hx with rfl | hx
      · exact haz
      · exact (ih hl).mp hlz x hx
    · intro h0
      have haz : a = 0 := h0 a (Or.inl rfl)
      have hlz : l.sum = 0 := (ih hl).mpr (fun x hx => h0 x (Or.inr hx))
      rw [haz, hlz, add_zero]

theorem transition_cost_symm (A B : LoadVector) (itfs : List Interface) :
    transition_cost A B itfs = transition_cost B A itfs := by
  unfold transition_cost
  congr 1
  exact List.map_congr_left (fun i _ => abs_sub_comm _ _)

theorem transition_cost_nonneg (A B : LoadVector) (itfs : List Interface) :
    0 ≤ transition_cost A B itfs :=
  List.sum_nonneg (by
    intro x hx
    simp only [List.mem_map] at hx
    obtain ⟨i, _, rfl⟩ := hx
    exact abs_nonneg _)

/-! ## C5: metric properties of the transition cost -/

/-- C5.  `transition_cost` is symmetric and non-negative for every pair of
load vectors and every interface list.  The claimed "zero iff equal" holds
only under the side conditions made explicit here: the two loads agree away
from the listed interface names, carry non-negative loads on them, and every
listed interface has a strictly positive linear and non-negative quadratic
coefficient.  (Without them it fails: see the counterexample.) -/
theorem transition_cost_metric_properties (itfs : List Interface)
    (A B : LoadVector) :
    transition_cost A B itfs = transition_cost B A itfs ∧
    0 ≤ transition_cost A B itfs ∧
    ((∀ i ∈ itfs, 0 < i.epsilon ∧ 0 ≤ i.eta) →
      (∀ i ∈ itfs, 0 ≤ A i.name ∧ 0 ≤ B i.name) →
      (∀ name, (∀ i ∈ itfs, i.name ≠ name) → A name = B name) →
      (transition_cost A B itfs = 0 ↔ A = B)) := by
  refine ⟨transition_cost_symm A B itfs, transition_cost_nonneg A B itfs, ?_⟩
  intro hcoef hload hoff
  constructor
  · intro h0
    have hterms : ∀ x ∈ itfs.map (fun i => |i.cost (B i.name) - i.cost (A i.name)|), x = 0 := by
      refine (list_sum_eq_zero_iff_of_nonneg ?_).mp h0
      intro x hx
      simp only [List.mem_map] at hx
      obtain ⟨i, _, rfl⟩ := hx
      exact abs_nonneg _
    funext name
    by_cases hmem : ∀ i ∈ itfs, i.name ≠ name
    · exact hoff name hmem
    · push_neg at hmem
      obtain ⟨i, hi, hiname⟩ := hmem
      have hzero : |i.cost (B i.name) - i.cost (A i.name)| = 0 :=
        hterms _ (List.mem_map.mpr ⟨i, hi, rfl⟩)
      have hcost : i.cost (A i.name) = i.cost (B i.name) := by
        have := abs_eq_zero.mp hzero
        linarith [sub_eq_zero.mp this]
      have heq : A i.name = B i.name := by
        by_contra hne
        rcases lt_or_gt_of_ne hne with hlt | hgt
        · exact absurd hcost
            (ne_of_lt (i.cost_strictMono (hcoef i hi).1 (hcoef i hi).2 (hload i hi).1 hlt))
        · exact absurd hcost.symm
            (ne_of_lt (i.cost_strictMono (hcoef i hi).1 (hcoef i hi).2 (hload i hi).2 hgt))
      rwa [hiname] at heq
  · intro hAB
    subst hAB
    unfold transition_cost
    apply List.sum_eq_zero
    intro x hx
    simp only [List.mem_map] at hx
    obtain ⟨i, _, rfl⟩ := hx
    simp

/-- C5 counterexample: the claim's unconditional "`transition_cost(A,B) = 0`
iff `A == B`" is false.  With the single interface `I1`, the load putting one
unit on the unrelated name "X" has zero transition cost to the empty load,
yet the two load vectors differ (also under Python's content equality). -/
theorem transition_cost_zero_of_ne_counterexample :
    transition_cost loadX emptyLoad [itfI1] = 0 ∧ loadX ≠ emptyLoad := by
  constructor
  · decide
  · intro h
    have h1 := congrFun h "X"
    simp [loadX, emptyLoad] at h1

/-- C5 witness: the conditional zero-iff-equal part of
`transition_cost_metric_properties` applied at a concrete pair where the
side conditions hold: one unit on "I1" versus the empty load has non-zero
transition cost. -/
theorem transition_cost_metric_properties_witness :
    transition_cost loadOneI1 emptyLoad [itfI1] ≠ 0 := by
  intro h0
  have h := (transition_cost_metric_properties [itfI1] loadOneI1 emptyLoad).2.2
    (by intro i hi; simp only [List.mem_singleton] at hi; subst hi; constructor <;> norm_num [itfI1])
    (by intro i hi; simp only [List.mem_singleton] at hi; subst hi
        constructor <;> simp [itfI1, loadOneI1, emptyLoad])
    (by intro name hname
        have := hname itfI1 (by simp)
        simp only [itfI1] at this
        simp [loadOneI1, emptyLoad, if_neg (Ne.symm this)])
  have heq := h.mp h0
  have h1 := congrFun heq "I1"
  simp [loadOneI1, emptyLoad] at h1

/-! ## C9: no construction-time validation of interfaces -/

/-- C9 counterexample: an `Interface` with non-positive capacity, zero
linear coefficient and negative quadratic coefficient is constructed without
any rejection and is fully usable — its cost, headroom and `max_n` all
compute.  This refutes the claim that such construction fails. -/
theorem interface_no_validation_counterexample :
    itfBad.capacity ≤ 0 ∧ itfBad.epsilon ≤ 0 ∧ itfBad.eta < 0 ∧
    itfBad.cost 2 = -(1 / 2) ∧ itfBad.headroom 2 = -(1 / 2) ∧
    itfBad.max_n = 999 := by decide

/-- C9 amended: the dataclasses perform no validation; an `Interface` built
from degenerate parameters (non-positive capacity, non-positive linear
coefficient, or negative quadratic coefficient) is a usable object whose
operations compute from the given fields exactly as for valid parameters. -/
theorem interface_degenerate_usable (name : String) (cap eps eta : ℚ)
    (hdeg : cap ≤ 0 ∨ eps ≤ 0 ∨ eta < 0) :
    (Interface.mk name cap eps eta).cost 0 = 0 ∧
    (∀ n : ℤ, 0 < n →
      (Interface.mk name cap eps eta).cost n = eps * n + eta * n * (n - 1) / 2) ∧
    (∀ n : ℤ, (Interface.mk name cap eps eta).headroom n =
      cap - (Interface.mk name cap eps eta).cost n) ∧
    (eps ≤ 0 → eta < 1 / 10 ^ 12 → (Interface.mk name cap eps eta).max_n = 999) := by
  refine ⟨Interface.cost_of_nonpos _ le_rfl, ?_, fun n => rfl, ?_⟩
  · intro n hn
    exact Interface.cost_of_pos _ hn
  · intro heps heta
    unfold Interface.max_n
    rw [if_pos heta, if_neg (by simpa using not_lt.mpr heps)]

/-- C9 witness: `interface_degenerate_usable` applied to the concrete
degenerate interface parameters of `itfBad`. -/
theorem interface_degenerate_usable_witness :
    (Interface.mk "bad" (-1) 0 (-(1 / 2))).cost 0 = 0 ∧
    (Interface.mk "bad" (-1) 0 (-(1 / 2))).max_n = 999 := by
  have h := interface_degenerate_usable "bad" (-1) 0 (-(1 / 2)) (by norm_num)
  exact ⟨h.1, h.2.2.2 (by norm_num) (by norm_num)⟩

/-! ## C3: monotone accumulated cost along a history -/

theorem history_append_inv (hst : History) (load : LoadVector)
    (hchain : List.Chain' stepChainP hst.steps)
    (hhead : ∀ s ∈ hst.steps.head?, s.time = 0 ∧ s.transition_cost = 0) :
    List.Chain' stepChainP (hst.append load).steps ∧
      (∀ s ∈ (hst.append load).steps.head?, s.time = 0 ∧ s.transition_cost = 0) := by
  unfold History.append
  cases hlast : hst.steps.getLast? with
  | none =>
    have hnil : hst.steps = [] := List.getLast?_eq_none.mp hlast
    rw [hnil]
    constructor
    · exact List.chain'_singleton _
    · intro s hs
      simp only [List.nil_append, List.head?_cons, Option.mem_def,
        Option.some.injEq] at hs
      subst hs
      exact ⟨rfl, rfl⟩
  | some prev =>
    have hne : hst.steps ≠ [] := by
      intro h
      rw [h] at hlast
      simp at hlast
    constructor
    · rw [List.chain'_append]
      refine ⟨hchain, List.chain'_singleton _, ?_⟩
      intro x hx y hy
      simp only [Option.mem_def] at hx hy
      rw [hlast] at hx
      injection hx with hx
      subst hx
      simp only [List.head?_cons, Option.some.injEq] at hy
      subst hy
      refine ⟨rfl, transition_cost_nonneg _ _ _, ?_⟩
      have := transition_cost_nonneg prev.load load hst.interfaces
      show prev.time ≤ (mkStep hst.interfaces load
        (prev.time + transition_cost prev.load load hst.interfaces)
        (transition_cost prev.load load hst.interfaces)).time
      unfold mkStep
      dsimp only
      linarith
    · intro s hs
      apply hhead
      cases hsteps : hst.steps with
      | nil => exact absurd hsteps hne
      | cons a t =>
        rw [hsteps] at hs
        simpa using hs

theorem history_appendLoads_inv (loads : List LoadVector) (hst : History)
    (hchain : List.Chain' stepChainP hst.steps)
    (hhead : ∀ s ∈ hst.steps.head?, s.time = 0 ∧ s.transition_cost = 0) :
    List.Chain' stepChainP (hst.appendLoads loads).steps ∧
      (∀ s ∈ (hst.appendLoads loads).steps.head?,
        s.time = 0 ∧ s.transition_cost = 0) := by
  induction loads generalizing hst with
  | nil => exact ⟨hchain, hhead⟩
  | cons l ls ih =>
    have hstep := history_append_inv hst l hchain hhead
    exact ih (hst.append l) hstep.1 hstep.2

/-- C3.  For every interface list and every sequence of loads appended to a
fresh history, consecutive steps satisfy: the later `time` equals the
earlier `time` plus the step's non-negative `transition_cost`, so the
`time` (cumulative cost) sequence is non-decreasing; and the first appended
step has `time = 0` and `transition_cost = 0`. -/
theorem history_time_monotone (itfs : List Interface)
    (loads : List LoadVector) :
    (∀ i : ℕ, i + 1 < ((emptyHistory itfs).appendLoads loads).steps.length →
      (((emptyHistory itfs).appendLoads loads).steps.getD i
          defaultHistoryStep).time ≤
        (((emptyHistory itfs).appendLoads loads).steps.getD (i + 1)
          defaultHistoryStep).time ∧
      (((emptyHistory itfs).appendLoads loads).steps.getD (i + 1)
          defaultHistoryStep).time =
        (((emptyHistory itfs).appendLoads loads).steps.getD i
          defaultHistoryStep).time +
        (((emptyHistory itfs).appendLoads loads).steps.getD (i + 1)
          defaultHistoryStep).transition_cost ∧
      0 ≤ (((emptyHistory itfs).appendLoads loads).steps.getD (i + 1)
          defaultHistoryStep).transition_cost) ∧
    (0 < ((emptyHistory itfs).appendLoads loads).steps.length →
      (((emptyHistory itfs).appendLoads loads).steps.getD 0
          defaultHistoryStep).time = 0 ∧
      (((emptyHistory itfs).appendLoads loads).steps.getD 0
          defaultHistoryStep).transition_cost = 0) := by
  obtain ⟨hchain, hhead⟩ := history_appendLoads_inv loads (emptyHistory itfs)
    List.chain'_nil (by intro s hs; simp [emptyHistory] at hs)
  constructor
  · intro i hi
    have hi1 : i < ((emptyHistory itfs).appendLoads loads).steps.length := by omega
    have hrel := List.chain'_iff_get.mp hchain i (by omega)
    rw [List.getD_eq_get _ _ hi1, List.getD_eq_get _ _ hi]
    exact ⟨hrel.2.2, hrel.1, hrel.2.1⟩
  · intro hlen
    cases hsteps : ((emptyHistory itfs).appendLoads loads).steps with
    | nil => rw [hsteps] at hlen; simp at hlen
    | cons a t =>
      rw [hsteps] at hhead
      have := hhead a (by simp)
      simpa using this

/-- C3 witness: `history_time_monotone` at the concrete history built over
`[itfI1]` by appending the empty load and then one unit of load on "I1":
the cumulative cost of step 0 is at most that of step 1. -/
theorem history_time_monotone_witness :
    (((emptyHistory [itfI1]).appendLoads [emptyLoad, loadOneI1]).steps.getD 0
        defaultHistoryStep).time ≤
      (((emptyHistory [itfI1]).appendLoads [emptyLoad, loadOneI1]).steps.getD 1
        defaultHistoryStep).time ∧
    (((emptyHistory [itfI1]).appendLoads [emptyLoad, loadOneI1]).steps.getD 0
        defaultHistoryStep).time = 0 := by
  refine ⟨(history_time_monotone [itfI1] [emptyLoad, loadOneI1]).1 0 ?_ |>.1,
    ((history_time_monotone [itfI1] [emptyLoad, loadOneI1]).2 ?_).1⟩
  · decide
  · decide

/-! ## C6: `max_n` and the largest feasible load -/

theorem mul_den_mul_intCast (q : ℚ) (t : ℕ) :
    q * ((q.den * t : ℕ) : ℚ) = ((q.num * t : ℤ) : ℚ) := by
  push_cast
  rw [← mul_assoc, Rat.mul_den_eq_num]

theorem num_cast_of_den_dvd (q : ℚ) (t : ℕ) :
    (((q * ((q.den * t : ℕ) : ℚ)).num : ℤ) : ℚ) = q * ((q.den * t : ℕ) : ℚ) := by
  rw [mul_den_mul_intCast q t, Rat.num_intCast]

theorem num_cast_mul_natCast (n : ℤ) (s : ℕ) :
    ((((n : ℚ) * (s : ℚ)).num : ℤ) : ℚ) = (n : ℚ) * (s : ℚ) := by
  have h : (n : ℚ) * (s : ℚ) = ((n * (s : ℤ) : ℤ) : ℚ) := by push_cast; ring
  rw [h, Rat.num_intCast]

theorem rootFloor_eq (a b disc : ℚ) :
    rootFloor a b disc =
      rootFloorInt (2 * a * (((2 * a).den * (b.den * disc.den) : ℕ) : ℚ)).num
        (-b * (((2 * a).den * (b.den * disc.den) : ℕ) : ℚ)).num
        (disc * (((2 * a).den * (b.den * disc.den) : ℕ) : ℚ) *
          (((2 * a).den * (b.den * disc.den) : ℕ) : ℚ)).num := rfl

/-- Bracketing property of the truncated positive quadratic root computed
by `max_n`: for `a > 0` and `c ≤ 0`, the clamped floor `M` of the positive
root of `a·x² + b·x + c` satisfies `M ≥ 0`, `poly(M) ≤ 0 < poly(M+1)`. -/
theorem rootFloor_bracket (a b c disc : ℚ) (ha : 0 < a) (hc : c ≤ 0)
    (hdisc : disc = b * b - 4 * a * c) :
    0 ≤ max 0 (rootFloor a b disc) ∧
    a * ((max 0 (rootFloor a b disc) : ℤ) : ℚ) ^ 2 +
      b * ((max 0 (rootFloor a b disc) : ℤ) : ℚ) + c ≤ 0 ∧
    0 < a * (((max 0 (rootFloor a b disc) : ℤ) : ℚ) + 1) ^ 2 +
      b * (((max 0 (rootFloor a b disc) : ℤ) : ℚ) + 1) + c := by
  set s : ℕ := (2 * a).den * (b.den * disc.den) with hs
  set A : ℤ := (2 * a * (s : ℚ)).num with hA_def
  set B : ℤ := (-b * (s : ℚ)).num with hB_def
  set D : ℤ := (disc * (s : ℚ) * (s : ℚ)).num with hD_def
  have hspos : 0 < s := by
    refine Nat.mul_pos (2 * a).den_pos (Nat.mul_pos b.den_pos disc.den_pos)
  have hsq0 : (0 : ℚ) < (s : ℚ) := by exact_mod_cast hspos
  have hA : ((A : ℤ) : ℚ) = 2 * a * (s : ℚ) := num_cast_of_den_dvd (2 * a) _
  have hB : ((B : ℤ) : ℚ) = -b * (s : ℚ) := by
    have hs2 : s = (-b).den * ((2 * a).den * disc.den) := by
      rw [Rat.neg_den, hs]; ring
    rw [hB_def, hs2]
    exact num_cast_of_den_dvd (-b) _
  have hD1 : (((disc * (s : ℚ)).num : ℤ) : ℚ) = disc * (s : ℚ) := by
    have hs3 : s = disc.den * ((2 * a).den * b.den) := by rw [hs]; ring
    rw [hs3]
    exact num_cast_of_den_dvd disc _
  have hD : ((D : ℤ) : ℚ) = disc * (s : ℚ) * (s : ℚ) := by
    rw [hD_def]
    calc (((disc * (s : ℚ) * (s : ℚ)).num : ℤ) : ℚ)
        = ((((((disc * (s : ℚ)).num : ℤ) : ℚ) * (s : ℚ)).num : ℤ) : ℚ) := by
          rw [hD1]
      _ = (((disc * (s : ℚ)).num : ℤ) : ℚ) * (s : ℚ) := num_cast_mul_natCast _ _
      _ = disc * (s : ℚ) * (s : ℚ) := by rw [hD1]
  have hApos : 0 < A := by
    have h1 : (0 : ℚ) < ((A : ℤ) : ℚ) := by
      rw [hA]
      have : (0 : ℚ) < 2 * a := by linarith
      exact mul_pos this hsq0
    exact_mod_cast h1
  have hdiscnn : 0 ≤ disc := by nlinarith [sq_nonneg b, mul_nonneg ha.le (neg_nonneg.mpr hc)]
  have hDnn : 0 ≤ D := by
    have h1 : (0 : ℚ) ≤ ((D : ℤ) : ℚ) := by
      rw [hD]
      exact mul_nonneg (mul_nonneg hdiscnn hsq0.le) hsq0.le
    exact_mod_cast h1
  set sq : ℤ := ((Nat.sqrt D.toNat : ℕ) : ℤ) with hsq_def
  have hsqnn : 0 ≤ sq := Int.natCast_nonneg _
  have htoNat : ((D.toNat : ℕ) : ℤ) = D := Int.toNat_of_nonneg hDnn
  have hsq1 : sq * sq ≤ D := by
    rw [hsq_def, ← htoNat]
    exact_mod_cast Nat.sqrt_le D.toNat
  have hsq2 : D < (sq + 1) * (sq + 1) := by
    rw [hsq_def, ← htoNat]
    exact_mod_cast Nat.lt_succ_sqrt D.toNat
  set m : ℤ := Int.fdiv (B + sq) A with hm_def
  have hroot : rootFloor a b disc = m := by rw [rootFloor_eq]; rfl
  have hfdiv1 : m * A ≤ B + sq := by
    rw [hm_def, Int.fdiv_eq_ediv _ hApos.le]
    exact (Int.le_ediv_iff_mul_le hApos).mp le_rfl
  have hfdiv2 : B + sq < (m + 1) * A := by
    rw [hm_def, Int.fdiv_eq_ediv _ hApos.le]
    exact (Int.ediv_lt_iff_lt_mul hApos).mp (Int.lt_succ _)
  have hiff : ∀ k : ℤ, (a * (k : ℚ) ^ 2 + b * k + c ≤ 0) ↔ ((A * k - B) ^ 2 ≤ D) := by
    intro k
    have hident : (2 * a * (k : ℚ) + b) ^ 2 - disc =
        4 * a * (a * (k : ℚ) ^ 2 + b * k + c) := by rw [hdisc]; ring
    have h4a : (0 : ℚ) < 4 * a := by linarith
    have step1 : (a * (k : ℚ) ^ 2 + b * k + c ≤ 0) ↔
        ((2 * a * (k : ℚ) + b) ^ 2 ≤ disc) := by
      constructor
      · intro h
        nlinarith [mul_nonpos_of_nonneg_of_nonpos h4a.le h]
      · intro h
        by_contra hp
        push_neg at hp
        nlinarith [mul_pos h4a hp]
    have hACast : ((A * k - B : ℤ) : ℚ) = (2 * a * (k : ℚ) + b) * (s : ℚ) := by
      push_cast
      rw [hA, hB]
      ring
    have step2 : ((2 * a * (k : ℚ) + b) ^ 2 ≤ disc) ↔
        (((A * k - B : ℤ) : ℚ) ^ 2 ≤ ((D : ℤ) : ℚ)) := by
      rw [hACast, hD, mul_pow]
      constructor
      · intro h
        calc (2 * a * (k : ℚ) + b) ^ 2 * (s : ℚ) ^ 2
            ≤ disc * (s : ℚ) ^ 2 := mul_le_mul_of_nonneg_right h (by positivity)
          _ = disc * (s : ℚ) * (s : ℚ) := by ring
      · intro h
        have h2 : (2 * a * (k : ℚ) + b) ^ 2 * (s : ℚ) ^ 2 ≤ disc * (s : ℚ) ^ 2 := by
          calc (2 * a * (k : ℚ) + b) ^ 2 * (s : ℚ) ^ 2
              ≤ disc * (s : ℚ) * (s : ℚ) := h
            _ = disc * (s : ℚ) ^ 2 := by ring
        have hs2pos : (0 : ℚ) < (s : ℚ) ^ 2 := by positivity
        exact le_of_mul_le_mul_right h2 hs2pos
    have step3 : (((A * k - B : ℤ) : ℚ) ^ 2 ≤ ((D : ℤ) : ℚ)) ↔
        ((A * k - B) ^ 2 ≤ D) := by
      constructor
      · intro h; exact_mod_cast h
      · intro h; exact_mod_cast h
    rw [step1, step2, step3]
  have hB2 : B * B ≤ D := by
    have h0 : a * ((0 : ℤ) : ℚ) ^ 2 + b * ((0 : ℤ) : ℚ) + c ≤ 0 := by
      push_cast
      linarith [hc]
    have h1 := (hiff 0).mp h0
    calc B * B = (A * 0 - B) ^ 2 := by ring
      _ ≤ D := h1
  have hBle : B ≤ sq := by
    by_contra h
    push_neg at h
    have h1 : sq + 1 ≤ B := Int.add_one_le_iff.mpr h
    have h2 : (sq + 1) * (sq + 1) ≤ B * B :=
      mul_le_mul h1 h1 (by linarith) (by linarith)
    linarith
  have hBge : -sq ≤ B := by
    by_contra h
    push_neg at h
    have h1 : sq + 1 ≤ -B := by omega
    have h2 : (sq + 1) * (sq + 1) ≤ (-B) * (-B) :=
      mul_le_mul h1 h1 (by omega) (by omega)
    nlinarith
  have hmnn : 0 ≤ m := by
    by_contra h
    push_neg at h
    have h1 : m + 1 ≤ 0 := by omega
    have h2 : (m + 1) * A ≤ 0 := by
      calc (m + 1) * A ≤ 0 * A := mul_le_mul_of_nonneg_right h1 hApos.le
        _ = 0 := by ring
    linarith
  have hM : max 0 (rootFloor a b disc) = m := by rw [hroot]; exact max_eq_right hmnn
  rw [hM]
  refine ⟨hmnn, ?_, ?_⟩
  · apply (hiff m).mpr
    have hcomm : m * A = A * m := mul_comm m A
    have hup : A * m - B ≤ sq := by linarith
    have hAm : 0 ≤ A * m := mul_nonneg hApos.le hmnn
    have hlo : -sq ≤ A * m - B := by linarith
    calc (A * m - B) ^ 2 ≤ sq ^ 2 := sq_le_sq' hlo hup
      _ = sq * sq := pow_two sq
      _ ≤ D := hsq1
  · by_contra h
    push_neg at h
    have hiffm1 := hiff (m + 1)
    push_cast at hiffm1
    have h2 := hiffm1.mp h
    have hcomm : (m + 1) * A = A * (m + 1) := mul_comm _ _
    have h1 : sq + 1 ≤ A * (m + 1) - B := by
      apply Int.add_one_le_iff.mpr
      linarith
    have h3 : (sq + 1) * (sq + 1) ≤ (A * (m + 1) - B) * (A * (m + 1) - B) :=
      mul_le_mul h1 h1 (by linarith) (by linarith)
    have h4 : (A * (m + 1) - B) ^ 2 = (A * (m + 1) - B) * (A * (m + 1) - B) :=
      pow_two _
    linarith

/-- C6 amended.  For every interface with positive linear coefficient,
non-negative capacity, and quadratic coefficient that is either zero or at
least the source's `1e-12` branch threshold, `max_n` returns the largest
integer `n ≥ 0` with `cost(n) ≤ capacity`.  (The original claim, quantified
over all positive-`ε`, non-negative-`η` interfaces, is refuted by
`max_n_tiny_eta_counterexample`.) -/
theorem max_n_greatest (I : Interface) (heps : 0 < I.epsilon)
    (hcap : 0 ≤ I.capacity) (heta : I.eta = 0 ∨ 1 / 10 ^ 12 ≤ I.eta) :
    0 ≤ I.max_n ∧ I.cost I.max_n ≤ I.capacity ∧
    ∀ k : ℤ, I.max_n < k → I.capacity < I.cost k := by
  have hetann : 0 ≤ I.eta := by
    rcases heta with h | h
    · rw [h]
    · have : (0 : ℚ) < 1 / 10 ^ 12 := by norm_num
      linarith
  rcases heta with h0 | hbig
  · -- linear branch: eta = 0
    have hbranch : I.eta < 1 / 10 ^ 12 := by rw [h0]; norm_num
    have hM : I.max_n = truncQ (I.capacity / I.epsilon) := by
      unfold Interface.max_n
      rw [if_pos hbranch, if_pos heps]
    have hdivnn : 0 ≤ I.capacity / I.epsilon := div_nonneg hcap heps.le
    have htr : truncQ (I.capacity / I.epsilon) = ⌊I.capacity / I.epsilon⌋ := by
      unfold truncQ
      rw [if_neg (not_lt.mpr hdivnn)]
    have hMf : I.max_n = ⌊I.capacity / I.epsilon⌋ := by rw [hM, htr]
    have hMnn : 0 ≤ I.max_n := by
      rw [hMf]
      exact Int.floor_nonneg.mpr hdivnn
    have hcost_le : I.cost I.max_n ≤ I.capacity := by
      rcases eq_or_lt_of_le hMnn with hz | hpos
      · rw [← hz, Interface.cost_of_nonpos I le_rfl]
        exact hcap
      · rw [Interface.cost_of_pos I hpos, h0]
        have hle : ((I.max_n : ℤ) : ℚ) ≤ I.capacity / I.epsilon := by
          rw [hMf]; exact Int.floor_le _
        have := (le_div_iff₀ heps).mp hle
        nlinarith
    refine ⟨hMnn, hcost_le, ?_⟩
    intro k hk
    have hk1 : I.max_n + 1 ≤ k := by omega
    have hmono := I.cost_mono heps.le hetann hk1
    have hklt : I.capacity < I.cost (I.max_n + 1) := by
      rw [Interface.cost_of_pos I (by omega), h0]
      have hlt : I.capacity / I.epsilon < ((I.max_n : ℤ) : ℚ) + 1 := by
        rw [hMf]; exact Int.lt_floor_add_one _
      have := (div_lt_iff₀ heps).mp hlt
      push_cast
      nlinarith
    linarith
  · -- quadratic branch: eta ≥ 1e-12
    have hbranch : ¬ I.eta < 1 / 10 ^ 12 := not_lt.mpr hbig
    have ha : 0 < I.eta / 2 := by
      have : (0 : ℚ) < 1 / 10 ^ 12 := by norm_num
      linarith
    have hcneg : -I.capacity ≤ 0 := by linarith
    have hdiscnn : ¬ ((I.epsilon - I.eta / 2) * (I.epsilon - I.eta / 2) -
        4 * (I.eta / 2) * -I.capacity < 0) := by
      push_neg
      nlinarith [sq_nonneg (I.epsilon - I.eta / 2), mul_nonneg ha.le hcap]
    have hM : I.max_n = max 0 (rootFloor (I.eta / 2) (I.epsilon - I.eta / 2)
        ((I.epsilon - I.eta / 2) * (I.epsilon - I.eta / 2) -
          4 * (I.eta / 2) * -I.capacity)) := by
      simp only [Interface.max_n]
      rw [if_neg hbranch, if_neg hdiscnn]
    obtain ⟨hmnn, hpoly1, hpoly2⟩ := rootFloor_bracket (I.eta / 2)
      (I.epsilon - I.eta / 2) (-I.capacity)
      ((I.epsilon - I.eta / 2) * (I.epsilon - I.eta / 2) -
        4 * (I.eta / 2) * -I.capacity) ha hcneg rfl
    rw [← hM] at hmnn hpoly1 hpoly2
    have hident : ∀ k : ℤ, 0 < k →
        I.cost k = I.eta / 2 * (k : ℚ) ^ 2 + (I.epsilon - I.eta / 2) * k := by
      intro k hk
      rw [Interface.cost_of_pos I hk]
      ring
    have hcost_le : I.cost I.max_n ≤ I.capacity := by
      rcases eq_or_lt_of_le hmnn with hz | hpos
      · rw [← hz, Interface.cost_of_nonpos I le_rfl]
        exact hcap
      · rw [hident I.max_n hpos]
        linarith
    refine ⟨hmnn, hcost_le, ?_⟩
    intro k hk
    have hk1 : I.max_n + 1 ≤ k := by omega
    have hmono := I.cost_mono heps.le hetann hk1
    have hklt : I.capacity < I.cost (I.max_n + 1) := by
      rw [hident (I.max_n + 1) (by omega)]
      push_cast
      push_cast at hpoly2
      linarith
    linarith

set_option maxRecDepth 4000 in
/-- C6 counterexample: for an interface with a positive but sub-threshold
quadratic coefficient (`0 < eta < 1e-12`) and a large capacity, `max_n`
takes the linear branch and returns a value whose cost strictly exceeds the
capacity, so it is not the largest `n` with `cost(n) ≤ capacity` even
though the linear coefficient is positive and the quadratic coefficient
non-negative. -/
theorem max_n_tiny_eta_counterexample :
    0 < itfTinyEta.epsilon ∧ 0 ≤ itfTinyEta.eta ∧ 0 ≤ itfTinyEta.capacity ∧
    itfTinyEta.max_n = 10 ^ 15 ∧
    itfTinyEta.capacity < itfTinyEta.cost itfTinyEta.max_n := by
  have hm : itfTinyEta.max_n = 10 ^ 15 := by decide
  refine ⟨by norm_num [itfTinyEta], by norm_num [itfTinyEta],
    by norm_num [itfTinyEta], hm, ?_⟩
  rw [hm]
  decide

/-- C6 witness: `max_n_greatest` applied to the spec's concrete scenario
interface `{capacity=8, linear=1.0, quadratic=0.5}`, together with the
concrete values: `max_n = 4`, `cost(4) = 7 ≤ 8`, `cost(5) = 10 > 8`. -/
theorem max_n_greatest_witness :
    itfI1.max_n = 4 ∧ itfI1.cost 4 = 7 ∧ itfI1.cost 5 = 10 ∧
    itfI1.cost itfI1.max_n ≤ itfI1.capacity ∧
    (∀ k : ℤ, itfI1.max_n < k → itfI1.capacity < itfI1.cost k) := by
  have hsqrt : Nat.sqrt 140288 = 374 := by
    have h1 : 374 ≤ Nat.sqrt 140288 := Nat.le_sqrt.mpr (by norm_num)
    have h2 : Nat.sqrt 140288 < 375 := Nat.sqrt_lt.mpr (by norm_num)
    omega
  have hmax : itfI1.max_n = 4 := by
    simp only [Interface.max_n, itfI1]
    rw [if_neg (by norm_num), if_neg (by norm_num)]
    rw [rootFloor_eq]
    have hd1 : (2 * ((1 : ℚ) / 2 / 2)).den = 2 := by decide
    have hd2 : (1 - (1 : ℚ) / 2 / 2).den = 4 := by decide
    have hd3 : ((1 - (1 : ℚ) / 2 / 2) * (1 - (1 : ℚ) / 2 / 2) -
        4 * ((1 : ℚ) / 2 / 2) * -8).den = 16 := by decide
    rw [hd1, hd2, hd3]
    have hA : (2 * ((1 : ℚ) / 2 / 2) * ((2 * (4 * 16) : ℕ) : ℚ)).num = 64 := by
      decide
    have hB : (-(1 - (1 : ℚ) / 2 / 2) * ((2 * (4 * 16) : ℕ) : ℚ)).num = -96 := by
      decide
    have hD : (((1 - (1 : ℚ) / 2 / 2) * (1 - (1 : ℚ) / 2 / 2) -
        4 * ((1 : ℚ) / 2 / 2) * -8) * ((2 * (4 * 16) : ℕ) : ℚ) *
        ((2 * (4 * 16) : ℕ) : ℚ)).num = 140288 := by decide
    rw [hA, hB, hD]
    unfold rootFloorInt
    rw [show Int.toNat (140288 : ℤ) = 140288 from rfl, hsqrt]
    decide
  have h := max_n_greatest itfI1 (by norm_num [itfI1]) (by norm_num [itfI1])
    (Or.inr (by norm_num [itfI1]))
  exact ⟨hmax, by decide, by decide, h.2.1, h.2.2⟩

/-! ## C2: the admission controller -/

theorem is_admissible_iff (load : LoadVector) (itfs : List Interface) :
    is_admissible load itfs = true ↔
      ∀ i ∈ itfs, EPS_SLACK < i.headroom (load i.name) := by
  simp [is_admissible]

theorem RFInv_none (existing : LoadVector) (demand : ℤ)
    (itfs : List Interface) (done : List Path) :
    RFInv existing demand itfs done none ↔
      ∀ p ∈ done, is_admissible (hypLoad existing p demand) itfs = false :=
  Iff.rfl

theorem RFInv_some (existing : LoadVector) (demand : ℤ)
    (itfs : List Interface) (done : List Path) (pc : Path × ℚ) :
    RFInv existing demand itfs done (some pc) ↔
      (pc.2 = total_cost (hypLoad existing pc.1 demand) itfs ∧
      is_admissible (hypLoad existing pc.1 demand) itfs = true ∧
      (∃ pre post, done = pre ++ pc.1 :: post ∧
        (∀ q ∈ pre, is_admissible (hypLoad existing q demand) itfs = true →
          pc.2 < total_cost (hypLoad existing q demand) itfs)) ∧
      (∀ q ∈ done, is_admissible (hypLoad existing q demand) itfs = true →
        pc.2 ≤ total_cost (hypLoad existing q demand) itfs)) :=
  Iff.rfl

theorem routeStep_inv (existing : LoadVector) (demand : ℤ)
    (itfs : List Interface) (done : List Path) (acc : Option (Path × ℚ))
    (p : Path) (h : RFInv existing demand itfs done acc) :
    RFInv existing demand itfs (done ++ [p])
      (routeStep existing demand itfs acc p) := by
  by_cases hadm : is_admissible (hypLoad existing p demand) itfs = true
  · cases acc with
    | none =>
      rw [RFInv_none] at h
      simp only [routeStep]
      rw [if_pos hadm, RFInv_some]
      refine ⟨rfl, hadm, ⟨done, [], rfl, ?_⟩, ?_⟩
      · intro q hq hq2
        rw [h q hq] at hq2
        exact absurd hq2 (by simp)
      · intro q hq hq2
        rcases List.mem_append.mp hq with hq3 | hq3
        · rw [h q hq3] at hq2
          exact absurd hq2 (by simp)
        · have heq : q = p := by simpa using hq3
          subst heq
          exact le_rfl
    | some pc =>
      rw [RFInv_some] at h
      obtain ⟨hcost, hadm0, ⟨pre, post, hsplit, hpre⟩, hmin⟩ := h
      simp only [routeStep]
      rw [if_pos hadm]
      by_cases hlt : total_cost (hypLoad existing p demand) itfs < pc.2
      · rw [if_pos hlt, RFInv_some]
        refine ⟨rfl, hadm, ⟨done, [], rfl, ?_⟩, ?_⟩
        · intro q hq hq2
          exact lt_of_lt_of_le hlt (hmin q hq hq2)
        · intro q hq hq2
          rcases List.mem_append.mp hq with hq3 | hq3
          · exact le_of_lt (lt_of_lt_of_le hlt (hmin q hq3 hq2))
          · have heq : q = p := by simpa using hq3
            subst heq
            exact le_rfl
      · rw [if_neg hlt, RFInv_some]
        refine ⟨hcost, hadm0, ⟨pre, post ++ [p], by rw [hsplit]; simp, hpre⟩, ?_⟩
        intro q hq hq2
        rcases List.mem_append.mp hq with hq3 | hq3
        · exact hmin q hq3 hq2
        · have heq : q = p := by simpa using hq3
          subst heq
          exact le_of_not_lt hlt
  · have hadmf : is_admissible (hypLoad existing p demand) itfs = false := by
      simpa using hadm
    cases acc with
    | none =>
      rw [RFInv_none] at h
      simp only [routeStep]
      rw [if_neg hadm, RFInv_none]
      intro q hq
      rcases List.mem_append.mp hq with hq3 | hq3
      · exact h q hq3
      · have heq : q = p := by simpa using hq3
        subst heq
        exact hadmf
    | some pc =>
      rw [RFInv_some] at h
      obtain ⟨hcost, hadm0, ⟨pre, post, hsplit, hpre⟩, hmin⟩ := h
      simp only [routeStep]
      rw [if_neg hadm, RFInv_some]
      refine ⟨hcost, hadm0, ⟨pre, post ++ [p], by rw [hsplit]; simp, hpre⟩, ?_⟩
      intro q hq hq2
      rcases List.mem_append.mp hq with hq3 | hq3
      · exact hmin q hq3 hq2
      · have heq : q = p := by simpa using hq3
        subst heq
        rw [hadmf] at hq2
        exact absurd hq2 (by simp)

theorem routeFold_inv (existing : LoadVector) (demand : ℤ)
    (itfs : List Interface) (rest : List Path) :
    ∀ (done : List Path) (acc : Option (Path × ℚ)),
      RFInv existing demand itfs done acc →
      RFInv existing demand itfs (done ++ rest)
        (rest.foldl (routeStep existing demand itfs) acc) := by
  induction rest with
  | nil => intro done acc h; simpa using h
  | cons p rest ih =>
    intro done acc h
    have h1 := routeStep_inv existing demand itfs done acc p h
    have h2 := ih (done ++ [p]) _ h1
    rw [List.append_assoc] at h2
    simpa using h2

theorem routeFold_spec (existing : LoadVector) (demand : ℤ)
    (itfs : List Interface) (paths : List Path) :
    RFInv existing demand itfs paths
      (routeFold existing demand itfs paths) := by
  have h := routeFold_inv existing demand itfs paths [] none
    (by rw [RFInv_none]; intro p hp; exact absurd hp (List.not_mem_nil p))
  simpa [routeFold] using h

/-- C2.  The admission controller `route_obligation` returns a routing only
if the hypothetical load (current load plus demand times the path's
contribution) leaves every interface headroom strictly above the slack
margin `EPS_SLACK`; among the enumerated candidates it returns the one of
minimum total cost, with ties broken in favour of the first candidate in
path-search order (every admissible candidate strictly earlier in the
enumeration is strictly more expensive); and when no enumerated candidate is
admissible it returns `none` (the function is total, so no exception is
possible). -/
theorem route_obligation_spec (net : Network) (ob : Obligation)
    (existing : LoadVector) (maxPaths : ℕ) :
    (route_obligation net ob existing maxPaths = none →
      ∀ p ∈ find_all_paths net ob.source ob.target 6 maxPaths,
        is_admissible (hypLoad existing p ob.demand) net.interfaces = false) ∧
    (∀ r, route_obligation net ob existing maxPaths = some r →
      r.obligation = ob ∧
      is_admissible (hypLoad existing r.path ob.demand) net.interfaces = true ∧
      (∀ i ∈ net.interfaces,
        EPS_SLACK < i.headroom (hypLoad existing r.path ob.demand i.name)) ∧
      (∃ pre post,
        find_all_paths net ob.source ob.target 6 maxPaths =
          pre ++ r.path :: post ∧
        (∀ q ∈ pre,
          is_admissible (hypLoad existing q ob.demand) net.interfaces = true →
          total_cost (hypLoad existing r.path ob.demand) net.interfaces <
            total_cost (hypLoad existing q ob.demand) net.interfaces)) ∧
      (∀ q ∈ find_all_paths net ob.source ob.target 6 maxPaths,
        is_admissible (hypLoad existing q ob.demand) net.interfaces = true →
        total_cost (hypLoad existing r.path ob.demand) net.interfaces ≤
          total_cost (hypLoad existing q ob.demand) net.interfaces)) := by
  have hspec := routeFold_spec existing ob.demand net.interfaces
    (find_all_paths net ob.source ob.target 6 maxPaths)
  constructor
  · intro hnone
    have h0 : routeFold existing ob.demand net.interfaces
        (find_all_paths net ob.source ob.target 6 maxPaths) = none := by
      unfold route_obligation at hnone
      exact Option.map_eq_none'.mp hnone
    rw [h0, RFInv_none] at hspec
    exact hspec
  · intro r hsome
    unfold route_obligation at hsome
    obtain ⟨pc, hpc, hr⟩ := Option.map_eq_some'.mp hsome
    rw [hpc, RFInv_some] at hspec
    obtain ⟨hcost, hadm, ⟨pre, post, hsplit, hpre⟩, hmin⟩ := hspec
    have hrob : r.obligation = ob := by rw [← hr]
    have hrpath : r.path = pc.1 := by rw [← hr]
    rw [← hrpath] at hadm hsplit hcost
    refine ⟨hrob, hadm, ?_, ⟨pre, post, hsplit, ?_⟩, ?_⟩
    · exact (is_admissible_iff _ _).mp hadm
    · intro q hq hq2
      rw [← hcost]
      exact hpre q hq hq2
    · intro q hq hq2
      rw [← hcost]
      exact hmin q hq hq2

/-- C2 witness: `route_obligation_spec` at the single-edge network
`tinyNet`, a unit A→B obligation and the empty load: the returned routing is
the direct edge and its hypothetical load is admissible. -/
theorem route_obligation_spec_witness :
    is_admissible
      (hypLoad emptyLoad (Path.mk ["A", "B"] [Edge.mk "A" "B" itfI1]) 1)
      tinyNet.interfaces = true ∧
    (RoutedObligation.mk (Obligation.mk 0 "A" "B" 1)
        (Path.mk ["A", "B"] [Edge.mk "A" "B" itfI1])).obligation =
      Obligation.mk 0 "A" "B" 1 := by
  have h := (route_obligation_spec tinyNet (Obligation.mk 0 "A" "B" 1)
      emptyLoad 10).2
    (RoutedObligation.mk (Obligation.mk 0 "A" "B" 1)
      (Path.mk ["A", "B"] [Edge.mk "A" "B" itfI1]))
    (by decide)
  exact ⟨h.2.1, h.1⟩

/-! ## C1 and C10: the relaxation optimizer -/

theorem list_set_same {α : Type} (l : List α) (i : ℕ) (a : α)
    (h : l.get? i = some a) : l.set i a = l := by
  induction l generalizing i with
  | nil => simp at h
  | cons x xs ih =>
    cases i with
    | zero =>
      simp only [List.get?] at h
      injection h with h
      rw [h]
      rfl
    | succ j =>
      simp only [List.get?] at h
      simp only [List.set]
      rw [ih j h]

theorem list_sum_set_of_get (l : List ℤ) (i : ℕ) (a b : ℤ)
    (h : l.get? i = some a) : (l.set i b).sum = l.sum - a + b := by
  induction l generalizing i with
  | nil => simp at h
  | cons x xs ih =>
    cases i with
    | zero =>
      simp only [List.get?] at h
      injection h with h
      subst h
      simp [List.set]
      ring
    | succ j =>
      simp only [List.get?] at h
      simp only [List.set, List.sum_cons]
      rw [ih j h]
      ring

theorem route_obligation_some_obligation (net : Network) (ob : Obligation)
    (existing : LoadVector) (maxPaths : ℕ) (r : RoutedObligation)
    (h : route_obligation net ob existing maxPaths = some r) :
    r.obligation = ob := by
  unfold route_obligation at h
  obtain ⟨pc, _, hr⟩ := Option.map_eq_some'.mp h
  rw [← hr]

theorem compute_load_set (l : List RoutedObligation) (i : ℕ)
    (ri newR : RoutedObligation) (hget : l.get? i = some ri) (name : String) :
    compute_load_from_routed (l.set i newR) name =
      compute_load_from_routed l name -
        (ri.path.load_contribution name : ℤ) * ri.obligation.demand +
        (newR.path.load_contribution name : ℤ) * newR.obligation.demand := by
  unfold compute_load_from_routed
  rw [List.map_set]
  apply list_sum_set_of_get
  rw [List.get?_map, hget]
  rfl

theorem relaxStep_inv (net : Network) (itfs : List Interface)
    (obs : List Obligation) (c0 : ℚ) (st : RelaxState) (i : ℕ)
    (h : RelaxInv itfs obs c0 st) :
    RelaxInv itfs obs c0 (relaxStep net itfs st i) := by
  obtain ⟨hobs, hload, hcost, hle⟩ := h
  unfold relaxStep
  cases hget : st.current.get? i with
  | none => exact ⟨hobs, hload, hcost, hle⟩
  | some ri =>
    dsimp only
    cases hroute : route_obligation net ri.obligation
        (fun name => st.load name -
          (ri.path.load_contribution name : ℤ) * ri.obligation.demand) 10 with
    | none => exact ⟨hobs, hload, hcost, hle⟩
    | some newR =>
      dsimp only
      by_cases hif : total_cost
          (fun name => (st.load name -
            (ri.path.load_contribution name : ℤ) * ri.obligation.demand) +
            (newR.path.load_contribution name : ℤ) * ri.obligation.demand) itfs +
          EPS_COST < st.cost
      · rw [if_pos hif]
        have hob : newR.obligation = ri.obligation :=
          route_obligation_some_obligation _ _ _ _ _ hroute
        refine ⟨?_, ?_, rfl, ?_⟩
        · rw [List.map_set, hob]
          rw [list_set_same]
          · exact hobs
          · rw [List.get?_map, hget]
            rfl
        · intro name
          dsimp only
          rw [compute_load_set st.current i ri newR hget name, hob]
          have := hload name
          omega
        · have heps : (0 : ℚ) < EPS_COST := by norm_num [EPS_COST]
          linarith
      · rw [if_neg hif]
        exact ⟨hobs, hload, hcost, hle⟩

theorem relaxFold_inv (net : Network) (itfs : List Interface)
    (obs : List Obligation) (c0 : ℚ) (l : List ℕ) :
    ∀ st : RelaxState, RelaxInv itfs obs c0 st →
      RelaxInv itfs obs c0 (l.foldl (relaxStep net itfs) st) := by
  induction l with
  | nil => intro st h; exact h
  | cons i l ih =>
    intro st h
    exact ih _ (relaxStep_inv net itfs obs c0 st i h)

theorem relaxPass_inv (net : Network) (itfs : List Interface)
    (obs : List Obligation) (c0 : ℚ) (st : RelaxState)
    (h : RelaxInv itfs obs c0 st) :
    RelaxInv itfs obs c0 (relaxPass net itfs st) :=
  relaxFold_inv net itfs obs c0 _ st h

theorem relaxLoop_inv (net : Network) (itfs : List Interface)
    (obs : List Obligation) (c0 : ℚ) (k : ℕ) :
    ∀ st : RelaxState, RelaxInv itfs obs c0 st →
      RelaxInv itfs obs c0 (relaxLoop net itfs k st) := by
  induction k with
  | zero => intro st h; exact h
  | succ k ih =>
    intro st h
    simp only [relaxLoop]
    have h1 : RelaxInv itfs obs c0 { st with improved := false } := h
    have h2 := relaxPass_inv net itfs obs c0 _ h1
    by_cases himp : (relaxPass net itfs { st with improved := false }).improved
    · rw [if_pos himp]
      exact ih _ h2
    · rw [if_neg himp]
      exact h2

theorem relax_routing_inv (net : Network) (routed : List RoutedObligation)
    (iterations : ℕ) :
    RelaxInv net.interfaces (routed.map (fun r => r.obligation))
      (total_cost (compute_load_from_routed routed) net.interfaces)
      (relaxLoop net net.interfaces iterations
        ⟨routed, compute_load_from_routed routed,
          total_cost (compute_load_from_routed routed) net.interfaces,
          false⟩) := by
  apply relaxLoop_inv
  exact ⟨rfl, fun _ => rfl, rfl, le_rfl⟩

theorem relax_cost_le (net : Network) (routed : List RoutedObligation)
    (iterations : ℕ) :
    total_cost (relax_routing net routed iterations).2 net.interfaces ≤
      total_cost (compute_load_from_routed routed) net.interfaces := by
  obtain ⟨h1, h2a, hcost, hle⟩ := relax_routing_inv net routed iterations
  have h2 : (relax_routing net routed iterations).2 =
      (relaxLoop net net.interfaces iterations
        ⟨routed, compute_load_from_routed routed,
          total_cost (compute_load_from_routed routed) net.interfaces,
          false⟩).load := rfl
  rw [h2, ← hcost]
  exact hle

/-- C1.  The relaxation optimizer never increases the total enforcement
cost: after any call to `relax_routing`, the total cost of the returned
load configuration is at most the total cost of the input configuration
(and a fortiori at most the input cost plus the comparison tolerance
`EPS_COST`), because a route is only replaced when the replacement is
admissible and strictly cheaper by more than `EPS_COST`. -/
theorem relax_routing_cost_nonincreasing (net : Network)
    (routed : List RoutedObligation) (iterations : ℕ) :
    total_cost (relax_routing net routed iterations).2 net.interfaces ≤
      total_cost (compute_load_from_routed routed) net.interfaces ∧
    total_cost (relax_routing net routed iterations).2 net.interfaces ≤
      total_cost (compute_load_from_routed routed) net.interfaces +
        EPS_COST := by
  have hle := relax_cost_le net routed iterations
  have heps : (0 : ℚ) ≤ EPS_COST := by norm_num [EPS_COST]
  exact ⟨hle, by linarith⟩

/-- C10.  `relax_routing` returns an obligation list of the same length
carrying the same obligation at each position (only path assignments may
differ), and the returned load vector is exactly the load recomputed from
the returned list by `compute_load_from_routed` — the incrementally
maintained load never drifts from the routings it describes. -/
theorem relax_routing_preserves_obligations_load (net : Network)
    (routed : List RoutedObligation) (iterations : ℕ) :
    (relax_routing net routed iterations).1.map (fun r => r.obligation) =
      routed.map (fun r => r.obligation) ∧
    (relax_routing net routed iterations).1.length = routed.length ∧
    (relax_routing net routed iterations).2 =
      compute_load_from_routed (relax_routing net routed iterations).1 := by
  obtain ⟨hobs, hload, hc, hl⟩ := relax_routing_inv net routed iterations
  have h1 : (relax_routing net routed iterations).1 =
      (relaxLoop net net.interfaces iterations
        ⟨routed, compute_load_from_routed routed,
          total_cost (compute_load_from_routed routed) net.interfaces,
          false⟩).current := rfl
  have h2 : (relax_routing net routed iterations).2 =
      (relaxLoop net net.interfaces iterations
        ⟨routed, compute_load_from_routed routed,
          total_cost (compute_load_from_routed routed) net.interfaces,
          false⟩).load := rfl
  refine ⟨by rw [h1]; exact hobs, ?_, ?_⟩
  · have h3 := congrArg List.length hobs
    simp only [List.length_map] at h3
    rw [h1]
    exact h3
  · rw [h1, h2]
    funext name
    exact hload name

/-! ## C8: the floor estimator's control flow -/

theorem estimateAux_spec (net : Network) (itfs : List Interface)
    (K total : ℕ) :
    ∀ (remaining : List Obligation) (active : List RoutedObligation)
      (action : ℚ) (prevLoad : LoadVector) (t : ℕ),
      (estimateAux net itfs K total active action prevLoad t remaining).2.1 ≤
        remaining.length ∧
      (estimateAux net itfs K total active action prevLoad t
          remaining).1.map (fun s => s.time_step) =
        (List.range' t
          (estimateAux net itfs K total active action prevLoad t
            remaining).2.1).filter
          (fun u => decide ((u + 1) % K = 0 ∨ u = total - 1)) ∧
      (∀ ob2, remaining.get?
          (estimateAux net itfs K total active action prevLoad t
            remaining).2.1 = some ob2 →
        route_obligation net ob2
          (compute_load_from_routed
            (estimateAux net itfs K total active action prevLoad t
              remaining).2.2) 10 = none) := by
  intro remaining
  induction remaining with
  | nil =>
    intro active action prevLoad t
    refine ⟨Nat.le_refl 0, ?_, ?_⟩
    · simp [estimateAux]
    · intro ob2 h
      simp [estimateAux] at h
  | cons ob rest ih =>
    intro active action prevLoad t
    cases hroute : route_obligation net ob (compute_load_from_routed active) 10 with
    | none =>
      simp only [estimateAux, hroute]
      refine ⟨Nat.zero_le _, by simp, ?_⟩
      intro ob2 h
      simp only [List.get?] at h
      injection h with h
      subst h
      exact hroute
    | some routed =>
      by_cases hcond : (t + 1) % K = 0 ∨ t = total - 1
      · simp only [estimateAux, hroute, if_pos hcond]
        obtain ⟨ih1, ih2, ih3⟩ := ih (relax_routing net (active ++ [routed]) 3).1
          (action + transition_cost prevLoad
            (compute_load_from_routed (active ++ [routed])) itfs)
          (compute_load_from_routed (active ++ [routed])) (t + 1)
        refine ⟨by simpa using Nat.succ_le_succ ih1, ?_, ?_⟩
        · dsimp only
          rw [List.range'_succ, List.filter_cons_of_pos (by
            exact decide_eq_true hcond)]
          rw [List.map_cons, ih2]
        · intro ob2 h
          simp only [List.get?] at h
          exact ih3 ob2 h
      · simp only [estimateAux, hroute, if_neg hcond]
        obtain ⟨ih1, ih2, ih3⟩ := ih (active ++ [routed])
          (action + transition_cost prevLoad
            (compute_load_from_routed (active ++ [routed])) itfs)
          (compute_load_from_routed (active ++ [routed])) (t + 1)
        refine ⟨by simpa using Nat.succ_le_succ ih1, ?_, ?_⟩
        · dsimp only
          rw [List.range'_succ, List.filter_cons_of_neg (by
            simpa using hcond)]
          exact ih2
        · intro ob2 h
          simp only [List.get?] at h
          exact ih3 ob2 h

/-- C8.  The floor estimator processes the obligation stream in order:
there is a prefix length `m` of admitted obligations such that the recorded
reports are exactly those admitted steps `u < m` with `(u+1) % K = 0` or
`u = length - 1` (every `K`-th admission and the final stream element), in
order; and if `m` is not the whole stream then the `m`-th obligation is the
first one the admission controller rejects against the then-active load, at
which point the estimator stops and returns the reports accumulated so far
(the function is total, so no exception is possible).  The hypothesis
`0 < K` mirrors the source, where `relax_every = 0` would crash the modulus
operation. -/
theorem estimate_lambda_floor_spec (net : Network) (stream : List Obligation)
    (K : ℕ) (hK : 0 < K) :
    ∃ m : ℕ, m ≤ stream.length ∧
      (estimate_lambda_floor net stream K).map (fun s => s.time_step) =
        (List.range m).filter
          (fun u => decide ((u + 1) % K = 0 ∨ u = stream.length - 1)) ∧
      (∀ ob, stream.get? m = some ob →
        route_obligation net ob
          (compute_load_from_routed
            (estimateAux net net.interfaces K stream.length [] 0 emptyLoad 0
              stream).2.2) 10 = none) := by
  obtain ⟨h1, h2, h3⟩ := estimateAux_spec net net.interfaces K stream.length
    stream [] 0 emptyLoad 0
  refine ⟨(estimateAux net net.interfaces K stream.length [] 0 emptyLoad 0
    stream).2.1, h1, ?_, h3⟩
  rw [List.range_eq_range']
  exact h2

/-- C8 witness: `estimate_lambda_floor_spec` applied to the two-obligation
stream on the single-edge network with `K = 1`. -/
theorem estimate_lambda_floor_spec_witness :
    ∃ m : ℕ, m ≤ tinyStream.length ∧
      (estimate_lambda_floor tinyNet tinyStream 1).map (fun s => s.time_step) =
        (List.range m).filter
          (fun u => decide ((u + 1) % 1 = 0 ∨ u = tinyStream.length - 1)) ∧
      (∀ ob, tinyStream.get? m = some ob →
        route_obligation tinyNet ob
          (compute_load_from_routed
            (estimateAux tinyNet tinyNet.interfaces 1 tinyStream.length [] 0
              emptyLoad 0 tinyStream).2.2) 10 = none) :=
  estimate_lambda_floor_spec tinyNet tinyStream 1 (by norm_num)

/-! ## C4: residual cost across reports -/

theorem estimateAux_lambdaE_le (net : Network) (K total : ℕ) :
    ∀ (remaining : List Obligation) (active : List RoutedObligation)
      (action : ℚ) (prevLoad : LoadVector) (t : ℕ),
      ∀ s ∈ (estimateAux net net.interfaces K total active action prevLoad t
        remaining).1,
        s.lambda_E ≤ s.raw_cost ∧
        s.relaxation_savings = s.raw_cost - s.lambda_E := by
  intro remaining
  induction remaining with
  | nil =>
    intro active action prevLoad t s hs
    simp [estimateAux] at hs
  | cons ob rest ih =>
    intro active action prevLoad t s hs
    cases hroute : route_obligation net ob (compute_load_from_routed active) 10 with
    | none =>
      simp only [estimateAux, hroute] at hs
      simp at hs
    | some routed =>
      by_cases hcond : (t + 1) % K = 0 ∨ t = total - 1
      · simp only [estimateAux, hroute, if_pos hcond] at hs
        rcases List.mem_cons.mp hs with hs | hs
        · subst hs
          refine ⟨?_, rfl⟩
          exact relax_cost_le net (active ++ [routed]) 3
        · exact ih _ _ _ _ s hs
      · simp only [estimateAux, hroute, if_neg hcond] at hs
        exact ih _ _ _ _ s hs

/-- C4 amended.  The claimed monotonicity of `residualCost` across reports
is false (see the counterexample); what does hold for every run is that at
each report the residual cost is at most the raw pre-relaxation cost, i.e.
the recorded relaxation savings `rawCost - residualCost` are
non-negative. -/
theorem residual_cost_le_raw_cost (net : Network) (stream : List Obligation)
    (K : ℕ) :
    ∀ s ∈ estimate_lambda_floor net stream K,
      s.lambda_E ≤ s.raw_cost ∧
      s.relaxation_savings = s.raw_cost - s.lambda_E ∧
      0 ≤ s.relaxation_savings := by
  intro s hs
  have h := estimateAux_lambdaE_le net K stream.length stream [] 0 emptyLoad 0
    s hs
  exact ⟨h.1, h.2, by rw [h.2]; linarith [h.1]⟩

/-- C4 witness: `residual_cost_le_raw_cost` at the first report of the run
on the single-edge network. -/
theorem residual_cost_le_raw_cost_witness :
    ((estimate_lambda_floor tinyNet tinyStream 1).getD 0
        defaultLambdaState).lambda_E ≤
      ((estimate_lambda_floor tinyNet tinyStream 1).getD 0
        defaultLambdaState).raw_cost := by
  have hlen : 0 < (estimate_lambda_floor tinyNet tinyStream 1).length := by
    decide
  have hmem : (estimate_lambda_floor tinyNet tinyStream 1).getD 0
      defaultLambdaState ∈ estimate_lambda_floor tinyNet tinyStream 1 := by
    rw [List.getD_eq_get _ _ hlen]
    exact List.get_mem _ _ _
  exact (residual_cost_le_raw_cost tinyNet tinyStream 1 _ hmem).1

set_option maxRecDepth 200000 in
/-- C4 counterexample: a concrete run of `estimate_lambda_floor` whose
`residualCost` (`lambda_E`) sequence strictly decreases between consecutive
reports.  On `gadgetNet`, the relaxation at the first report (step 4) is cut
off by the 3-pass iteration cap with improving moves still available; the
zero-cost self-loop obligation at step 5 triggers a second report whose
relaxation continues the descent, so the recorded residual cost drops from
20 to 19. -/
theorem residual_cost_monotonicity_counterexample :
    (estimate_lambda_floor gadgetNet gadgetStream 5).map
        (fun s => s.lambda_E) = [20, 19] ∧
    ¬ List.Chain' (fun a b => a ≤ b)
        ((estimate_lambda_floor gadgetNet gadgetStream 5).map
          (fun s => s.lambda_E)) := by
  have h : (estimate_lambda_floor gadgetNet gadgetStream 5).map
      (fun s => s.lambda_E) = [20, 19] := by decide
  refine ⟨h, ?_⟩
  rw [h]
  intro hch
  rw [List.chain'_cons] at hch
  have h20 : (20 : ℚ) ≤ 19 := hch.1
  norm_num at h20

/-! ## C7: path enumeration -/

theorem walkOk_append (net : Network) :
    ∀ (rest : List String) (source : String) (es : List Edge)
      (cur n : String) (e : Edge),
      walkOk net source rest es →
      (source :: rest).getLast? = some cur →
      (n, e) ∈ net.neighbors cur →
      walkOk net source (rest ++ [n]) (es ++ [e]) := by
  intro rest
  induction rest with
  | nil =>
    intro source es cur n e hw hlast hne
    cases es with
    | nil =>
      have hcur : source = cur := by simpa using hlast
      subst hcur
      exact ⟨hne, trivial⟩
    | cons e0 es0 => exact absurd hw (by simp [walkOk])
  | cons m rest ih =>
    intro source es cur n e hw hlast hne
    cases es with
    | nil => exact absurd hw (by simp [walkOk])
    | cons e0 es0 =>
      obtain ⟨h1, h2⟩ := hw
      have hlast2 : (m :: rest).getLast? = some cur := by
        rw [List.getLast?_cons_cons] at hlast
        exact hlast
      exact ⟨h1, ih m es0 cur n e h2 hlast2 hne⟩

theorem dfs_sound (net : Network) (source target : String)
    (maxLength maxPaths : ℕ) :
    ∀ (fuel : ℕ) (current : String) (visited : List String)
      (pathNodes : List String) (pathEdges : List Edge) (acc : List Path),
      (∀ p ∈ acc, goodPath net source target maxLength p) →
      (∃ rest, pathNodes = source :: rest ∧ walkOk net source rest pathEdges) →
      pathNodes.getLast? = some current →
      pathNodes.Nodup →
      pathNodes.length = pathEdges.length + 1 →
      (∀ x ∈ pathNodes, x ∈ visited) →
      ∀ p ∈ dfs net target maxLength maxPaths fuel current visited pathNodes
        pathEdges acc, goodPath net source target maxLength p := by
  intro fuel
  induction fuel with
  | zero =>
    intro current visited pathNodes pathEdges acc hacc _ _ _ _ _ p hp
    simp only [dfs] at hp
    exact hacc p hp
  | succ fuel ih =>
    intro current visited pathNodes pathEdges acc hacc hwalk hlast hnodup hlen
      hvis p hp
    simp only [dfs] at hp
    by_cases hguard : maxPaths ≤ acc.length ∨ maxLength < pathEdges.length
    · rw [if_pos hguard] at hp
      exact hacc p hp
    · rw [if_neg hguard] at hp
      push_neg at hguard
      by_cases htgt : current = target
      · rw [if_pos htgt] at hp
        rcases List.mem_append.mp hp with hp2 | hp2
        · exact hacc p hp2
        · have hpeq : p = ⟨pathNodes, pathEdges⟩ := by simpa using hp2
          subst hpeq
          obtain ⟨rest, hn, hw⟩ := hwalk
          refine ⟨⟨rest, hn, hw⟩, ?_, hnodup, ?_, hlen⟩
          · rw [htgt] at hlast
            exact hlast
          · exact hguard.2
      · rw [if_neg htgt] at hp
        have aux : ∀ (l : List (String × Edge)),
            (∀ ne ∈ l, ne ∈ net.neighbors current) →
            ∀ acc2 : List Path,
              (∀ q ∈ acc2, goodPath net source target maxLength q) →
              ∀ q ∈ l.foldl
                (fun acc3 ne =>
                  if ne.1 ∈ visited then acc3
                  else dfs net target maxLength maxPaths fuel ne.1
                    (ne.1 :: visited) (pathNodes ++ [ne.1])
                    (pathEdges ++ [ne.2]) acc3)
                acc2, goodPath net source target maxLength q := by
          intro l
          induction l with
          | nil =>
            intro _ acc2 hacc2 q hq
            exact hacc2 q hq
          | cons ne l ihl =>
            intro hin acc2 hacc2 q hq
            simp only [List.foldl_cons] at hq
            refine ihl (fun x hx => hin x (List.mem_cons_of_mem ne hx)) _ ?_ q hq
            by_cases hmem : ne.1 ∈ visited
            · rw [if_pos hmem]
              exact hacc2
            · rw [if_neg hmem]
              intro q2 hq2
              obtain ⟨rest, hn, hw⟩ := hwalk
              have hne : (ne.1, ne.2) ∈ net.neighbors current :=
                hin ne (List.mem_cons_self ne l)
              refine ih ne.1 (ne.1 :: visited) (pathNodes ++ [ne.1])
                (pathEdges ++ [ne.2]) acc2 hacc2 ?_ ?_ ?_ ?_ ?_ q2 hq2
              · refine ⟨rest ++ [ne.1], by rw [hn]; rfl, ?_⟩
                refine walkOk_append net rest source pathEdges current ne.1
                  ne.2 hw ?_ hne
                rw [← hn]
                exact hlast
              · exact List.getLast?_concat _
              · have hnotin : ne.1 ∉ pathNodes := fun hx => hmem (hvis ne.1 hx)
                simp [List.nodup_append, hnodup, hnotin]
              · simp [hlen]
              · intro x hx
                rcases List.mem_append.mp hx with hx2 | hx2
                · exact List.mem_cons_of_mem _ (hvis x hx2)
                · simp at hx2
                  subst hx2
                  exact List.mem_cons_self _ _
        exact aux (net.neighbors current) (fun _ hx => hx) acc hacc p hp

theorem dfs_length_le (net : Network) (target : String)
    (maxLength maxPaths : ℕ) :
    ∀ (fuel : ℕ) (current : String) (visited : List String)
      (pathNodes : List String) (pathEdges : List Edge) (acc : List Path),
      acc.length ≤ maxPaths →
      (dfs net target maxLength maxPaths fuel current visited pathNodes
        pathEdges acc).length ≤ maxPaths := by
  intro fuel
  induction fuel with
  | zero =>
    intro _ _ _ _ acc hacc
    simpa only [dfs] using hacc
  | succ fuel ih =>
    intro current visited pathNodes pathEdges acc hacc
    simp only [dfs]
    by_cases hguard : maxPaths ≤ acc.length ∨ maxLength < pathEdges.length
    · rw [if_pos hguard]
      exact hacc
    · rw [if_neg hguard]
      push_neg at hguard
      by_cases htgt : current = target
      · rw [if_pos htgt]
        have : acc.length < maxPaths := hguard.1
        simpa using this
      · rw [if_neg htgt]
        have aux : ∀ (l : List (String × Edge)) (acc2 : List Path),
            acc2.length ≤ maxPaths →
            (l.foldl
              (fun acc3 ne =>
                if ne.1 ∈ visited then acc3
                else dfs net target maxLength maxPaths fuel ne.1
                  (ne.1 :: visited) (pathNodes ++ [ne.1])
                  (pathEdges ++ [ne.2]) acc3)
              acc2).length ≤ maxPaths := by
          intro l
          induction l with
          | nil => intro acc2 h2; exact h2
          | cons ne l ihl =>
            intro acc2 h2
            simp only [List.foldl_cons]
            refine ihl _ ?_
            by_cases hmem : ne.1 ∈ visited
            · rw [if_pos hmem]; exact h2
            · rw [if_neg hmem]
              exact ih ne.1 (ne.1 :: visited) (pathNodes ++ [ne.1])
                (pathEdges ++ [ne.2]) acc2 h2
        exact aux (net.neighbors current) acc hacc

theorem filter_orderedInsert (len : ℕ) (a : Path) (l : List Path) :
    (List.orderedInsert pathLenLE a l).filter
        (fun p => p.edges.length == len) =
      if a.edges.length = len then
        a :: l.filter (fun p => p.edges.length == len)
      else l.filter (fun p => p.edges.length == len) := by
  induction l with
  | nil =>
    by_cases h : a.edges.length = len
    · simp [List.orderedInsert, h]
    · simp [List.orderedInsert, h]
  | cons y ys ih =>
    simp only [List.orderedInsert]
    by_cases hr : pathLenLE a y
    · rw [if_pos hr]
      by_cases h : a.edges.length = len
      · rw [if_pos h, List.filter_cons, if_pos (by simpa using h)]
      · rw [if_neg h, List.filter_cons, if_neg (by simpa using h)]
    · rw [if_neg hr]
      have hy : y.edges.length < a.edges.length := by
        have := hr
        unfold pathLenLE at this
        omega
      by_cases h : a.edges.length = len
      · have hyne : ¬ (y.edges.length = len) := by omega
        rw [if_pos h]
        rw [List.filter_cons, if_neg (by simpa using hyne)]
        rw [List.filter_cons, if_neg (by simpa using hyne)]
        rw [ih, if_pos h]
      · rw [if_neg h]
        rw [List.filter_cons]
        rw [List.filter_cons]
        rw [ih, if_neg h]

theorem filter_insertionSort (len : ℕ) (l : List Path) :
    (List.insertionSort pathLenLE l).filter
        (fun p => p.edges.length == len) =
      l.filter (fun p => p.edges.length == len) := by
  induction l with
  | nil => rfl
  | cons a l ih =>
    simp only [List.insertionSort]
    rw [filter_orderedInsert]
    by_cases h : a.edges.length = len
    · rw [if_pos h, ih, List.filter_cons, if_pos (by simpa using h)]
    · rw [if_neg h, ih, List.filter_cons, if_neg (by simpa using h)]

/-- C7 amended.  Every path returned by `find_all_paths` is a simple walk
(no repeated node) from `source` to `target` through network edges with at
most `maxLength` edges; when `source ≠ target` at most `maxPaths` paths are
returned; the result is sorted by increasing edge count with ties kept in
DFS discovery order (the filter at each edge count equals that of the raw
DFS enumeration — the sort is stable); and when `source = target` the result
is exactly one zero-edge path regardless of `maxPaths` (which is why the
unconditional "at most maxCount" of the original claim fails, see the
counterexample). -/
theorem find_all_paths_spec (net : Network) (source target : String)
    (maxLength maxPaths : ℕ) :
    (∀ p ∈ find_all_paths net source target maxLength maxPaths,
      goodPath net source target maxLength p) ∧
    (source ≠ target →
      (find_all_paths net source target maxLength maxPaths).length ≤
        maxPaths) ∧
    List.Sorted pathLenLE
      (find_all_paths net source target maxLength maxPaths) ∧
    (source ≠ target → ∀ len : ℕ,
      (find_all_paths net source target maxLength maxPaths).filter
        (fun p => p.edges.length == len) =
      (dfs net target maxLength maxPaths (dfsFuel net) source [source]
        [source] [] []).filter (fun p => p.edges.length == len)) ∧
    (source = target →
      find_all_paths net source target maxLength maxPaths =
        [⟨[source], []⟩]) := by
  by_cases heq : source = target
  · unfold find_all_paths
    rw [if_pos heq]
    refine ⟨?_, fun hne => absurd heq hne, ?_, fun hne => absurd heq hne,
      fun _ => rfl⟩
    · intro p hp
      have hpeq : p = ⟨[source], []⟩ := by simpa using hp
      subst hpeq
      refine ⟨⟨[], rfl, trivial⟩, ?_, by simp, Nat.zero_le _, by simp⟩
      simp [heq]
    · simp
  · unfold find_all_paths
    rw [if_neg heq]
    have hperm := List.perm_insertionSort pathLenLE
      (dfs net target maxLength maxPaths (dfsFuel net) source [source]
        [source] [] [])
    refine ⟨?_, ?_, List.sorted_insertionSort pathLenLE _, ?_,
      fun h => absurd h heq⟩
    · intro p hp
      have hp2 := hperm.mem_iff.mp hp
      refine dfs_sound net source target maxLength maxPaths (dfsFuel net)
        source [source] [source] [] [] (by simp) ⟨[], rfl, trivial⟩
        (by simp) (by simp) (by simp) (by simp) p hp2
    · intro _
      rw [hperm.length_eq]
      exact dfs_length_le net target maxLength maxPaths (dfsFuel net) source
        [source] [source] [] [] (by simp)
    · intro _ len
      exact filter_insertionSort len _

/-- C7 counterexample: with `source = target` the enumeration returns one
zero-edge path even when `maxCount = 0`, so the unconditional claim "at most
maxCount paths are returned" is false. -/
theorem find_all_paths_count_counterexample :
    find_all_paths (Network.mk ["A"] []) "A" "A" 6 0 =
      [Path.mk ["A"] []] ∧
    ¬ ((find_all_paths (Network.mk ["A"] []) "A" "A" 6 0).length ≤ 0) := by
  constructor
  · decide
  · decide

/-- C7 witness: `find_all_paths_spec` at the single-edge network for the
pair A→B: at most 10 paths, sorted by edge count, and each returned path is
a simple A→B walk of at most 6 edges. -/
theorem find_all_paths_spec_witness :
    (find_all_paths tinyNet "A" "B" 6 10).length ≤ 10 ∧
    List.Sorted pathLenLE (find_all_paths tinyNet "A" "B" 6 10) := by
  have h := find_all_paths_spec tinyNet "A" "B" 6 10
  exact ⟨h.2.1 (by decide), h.2.2.1⟩

end AdmissibilityPhysics
